import Mathlib

/-!
Verification development for the digital-coaching backend.

Shallow embedding of the parts of the backend that the claims mention:
the bot registry and ephemeral-bot gate, the durable chat turn commit,
the SSE streaming delivery channel, refresh-token rotation, password-reset
tokens, conversation soft delete, bounded history loading, and the
title-derivation / title-uniquification helpers.  Python strings are
modelled as Lean `String` or `List Char` (chunking and slicing claims use
`List Char` so that list lemmas apply); machine time is modelled as `Nat`
seconds; database tables are modelled as Lean lists of records, and one
HTTP-handler commit is one pure state transition.
-/

set_option maxRecDepth 8000

namespace DCoach

/-! ## Bot registry (src/bots/dunder-init.py) and the ephemeral gate (src/main.py) -/

/-- Keys of the `BOTS` registry dict, in source order. -/
def botsKeys : List String := ["personal", "formalization", "training", "product", "email"]

/-- `NO_PERSIST_BOT_IDS = {"widget"}` from src/main.py. -/
def noPersistBotIds : List String := ["widget"]

/-- `is_ephemeral_bot(bot_id)` from src/main.py. -/
def isEphemeralBot (botId : String) : Bool := noPersistBotIds.contains botId

/-- Branch taken by `/api/chat` and `/api/chat/stream` after input validation:
`bot_id not in BOTS` is rejected with 400 before the `is_ephemeral_bot` test. -/
inductive ChatBranch where
  | rejectedUnknownBot
  | ephemeral
  | durable
deriving DecidableEq, Repr

/-- The gate order of `chat_api` / `chat_api_stream` in src/main.py. -/
def chatApiBranch (botId : String) : ChatBranch :=
  if !(botsKeys.contains botId) then ChatBranch.rejectedUnknownBot
  else if isEphemeralBot botId then ChatBranch.ephemeral
  else ChatBranch.durable

theorem mem_botsKeys_not_ephemeral (b : String) (hb : b ∈ botsKeys) :
    isEphemeralBot b = false := by
  fin_cases hb <;> rfl

/-! ## Durable chat turn (src/main.py `chat_api`, src/bots/personal.py `run`,
src/bots/streaming.py `stream_chat`) -/

inductive Role where
  | user
  | assistant
deriving DecidableEq, Repr

structure ChatMsg where
  role : Role
  content : String
deriving DecidableEq, Repr

/-- The fixed apology string shared by every registered bot runner. -/
def apologyText : String :=
  "I apologize for the technical issue. Please try again or contact support."

/-- Outcome of the external LLM completion call (`client.chat.completions.create`):
either a reply, or it raises. -/
inductive LLMOutcome where
  | ok (reply : String)
  | err
deriving DecidableEq, Repr

/-- `run(message, session)` from src/bots/personal.py (formalization, training,
email and product have the same guarded shape): append the user message to the
session history, call the completion; on success append and return the reply,
on any exception return the fixed apology without raising. -/
def botRun (o : LLMOutcome) (message : String) (history : List ChatMsg) :
    String × List ChatMsg :=
  let h1 := history ++ [⟨Role.user, message⟩]
  match o with
  | LLMOutcome.ok reply => (reply, h1 ++ [⟨Role.assistant, reply⟩])
  | LLMOutcome.err => (apologyText, h1)

/-- The durable branch of `chat_api` (src/main.py lines 918-960) acting on the
conversation's committed message rows: append the user `Message` row, invoke the
runner (which never raises: exceptions of the completion call are caught inside
`run`), append the assistant `Message` row with the returned reply, and commit
everything with the single `db.commit()` at the end. -/
def chatApiDurableTurn (o : LLMOutcome) (message : String)
    (committed : List ChatMsg) : List ChatMsg :=
  let pending := committed ++ [⟨Role.user, message⟩]
  let reply := (botRun o message pending).1
  pending ++ [⟨Role.assistant, reply⟩]

/-- Message lists made of consecutive (user, assistant) turn pairs. -/
inductive WellPaired : List ChatMsg → Prop where
  | nil : WellPaired []
  | pair (u a : String) {rest : List ChatMsg} (h : WellPaired rest) :
      WellPaired (rest ++ [⟨Role.user, u⟩, ⟨Role.assistant, a⟩])

def countRole (r : Role) (l : List ChatMsg) : Nat :=
  (l.filter (fun m => m.role == r)).length

theorem wellPaired_count_eq {l : List ChatMsg} (h : WellPaired l) :
    countRole Role.user l = countRole Role.assistant l := by
  induction h with
  | nil => rfl
  | pair u a _ ih =>
      simp [countRole, List.filter_append] at ih ⊢
      omega

/-- `stream_chat` (src/bots/streaming.py): the sequence of chunks it yields,
given the upstream fragment sequence and the point (if any) at which the
upstream streamed call raises.  On an exception it replaces the accumulated
parts with the fixed apology and yields it. -/
def streamChatYield (frags : List (List Char)) (failAfter : Option Nat) :
    List (List Char) :=
  match failAfter with
  | none => frags
  | some k => frags.take k ++ [apologyText.data]

/-- The reply that `stream_chat` records into the session history at the end
(`"".join(parts)`): the whole concatenation on success, the apology alone on
failure (`parts = [error_text]` replaces the accumulated fragments). -/
def streamChatReply (frags : List (List Char)) (failAfter : Option Nat) :
    List Char :=
  match failAfter with
  | none => frags.flatten
  | some _ => apologyText.data

/-- Claim C1: for a durable turn whose bot capability invocation fails after the
user message was appended, the turn is still committed: the user message is
preserved, the fixed generic apology is recorded as the assistant reply, and
stored history keeps every user message paired with an assistant row; moreover
`stream_chat` converts an immediate upstream failure into the same fixed apology
and always records the apology as the reply on failure. -/
theorem claim_c1 (committed : List ChatMsg) (message : String)
    (h : WellPaired committed) :
    chatApiDurableTurn LLMOutcome.err message committed
      = committed ++ [⟨Role.user, message⟩, ⟨Role.assistant, apologyText⟩]
  ∧ WellPaired (chatApiDurableTurn LLMOutcome.err message committed)
  ∧ countRole Role.user (chatApiDurableTurn LLMOutcome.err message committed)
      = countRole Role.assistant (chatApiDurableTurn LLMOutcome.err message committed)
  ∧ (∀ frags : List (List Char), streamChatYield frags (some 0) = [apologyText.data])
  ∧ (∀ frags k, streamChatReply frags (some k) = apologyText.data) := by
  have hshape : chatApiDurableTurn LLMOutcome.err message committed
      = committed ++ [⟨Role.user, message⟩, ⟨Role.assistant, apologyText⟩] := by
    simp [chatApiDurableTurn, botRun]
  have hwp : WellPaired (chatApiDurableTurn LLMOutcome.err message committed) := by
    rw [hshape]; exact WellPaired.pair message apologyText h
  refine ⟨hshape, hwp, wellPaired_count_eq hwp, ?_, ?_⟩
  · intro frags; simp [streamChatYield]
  · intro frags k; rfl

theorem claim_c1_witness :
    WellPaired ([] : List ChatMsg)
  ∧ chatApiDurableTurn LLMOutcome.err "hi" []
      = [⟨Role.user, "hi"⟩, ⟨Role.assistant, apologyText⟩] := by
  refine ⟨WellPaired.nil, ?_⟩
  have h := claim_c1 [] "hi" WellPaired.nil
  simpa using h.1

/-! ## Unreachable ephemeral branch (claim C10) -/

/-- Claim C10: the ephemeral-bot id set `{"widget"}` is disjoint from the `BOTS`
registry keys, every registered bot is non-ephemeral, and therefore the
ephemeral branch of `/api/chat` and `/api/chat/stream` is unreachable: every
request either fails the unknown-bot check or takes the durable path. -/
theorem claim_c10 :
    (∀ b, b ∈ noPersistBotIds → ¬ b ∈ botsKeys)
  ∧ (∀ b, b ∈ botsKeys → isEphemeralBot b = false)
  ∧ (∀ b, chatApiBranch b ≠ ChatBranch.ephemeral) := by
  refine ⟨?_, mem_botsKeys_not_ephemeral, ?_⟩
  · intro b hb
    fin_cases hb
    decide
  · intro b
    unfold chatApiBranch
    by_cases hmem : botsKeys.contains b
    · have hb : b ∈ botsKeys := by
        simpa using hmem
      have := mem_botsKeys_not_ephemeral b hb
      simp [hmem, hb, this]
    · have hb : ¬ b ∈ botsKeys := by
        simpa using hmem
      simp [hmem, hb]

theorem claim_c10_witness :
    ¬ "widget" ∈ botsKeys ∧ chatApiBranch "widget" = ChatBranch.rejectedUnknownBot := by
  refine ⟨claim_c10.1 "widget" (by decide), by decide⟩

/-! ## Streaming delivery channel (src/main.py `chat_api_stream` lines 1449-1506
and `message_edit_stream` lines 1245-1304) -/

/-- Server-sent events emitted by the `event_stream` generators. -/
inductive SEvent where
  | meta (chatId : Option Nat)
  | delta (chunk : List Char)
  | done
  | error
deriving DecidableEq, Repr

/-- Structural worker for the slicing loop; `fuel` only bounds the number of
iterations and is immaterial once `fuel ≥ l.length`.  One iteration takes the
chunk `reply[i:i+20]` (here the first 20 characters) and continues after it. -/
def sliceChunksAux (fuel : Nat) (l : List Char) : List (List Char) :=
  match fuel, l with
  | 0, _ => []
  | _ + 1, [] => []
  | fuel + 1, c :: cs => (c :: cs.take 19) :: sliceChunksAux fuel (cs.drop 19)

/-- The slicing loop `for i in range(0, len(reply), 20): chunk = reply[i:i+20]`
used when the bot has no native fragment stream. -/
def sliceChunks (l : List Char) : List (List Char) :=
  sliceChunksAux l.length l

/-- The chunks that `event_stream` both appends to `assistant_parts` and sends
as `delta` events: the truthy fragments of `runner_stream` when the bot has a
fragment stream (`if not chunk: continue`), else the 20-character slices of the
full `runner` reply. -/
def streamDeltas (runnerStream : Option (List (List Char))) (reply : List Char) :
    List (List Char) :=
  match runnerStream with
  | some frags => frags.filter (fun c => !c.isEmpty)
  | none => sliceChunks reply

/-- `assistant_text = "".join(assistant_parts)`: the text stored as the
assistant `Message` row when the stream commits. -/
def persistedAssistantText (runnerStream : Option (List (List Char)))
    (reply : List Char) : List Char :=
  (streamDeltas runnerStream reply).flatten

/-- The full event sequence produced by `event_stream`: `meta` first, then the
`delta` events, then `done` after the commit; if an exception is raised after
`k` deltas were yielded (failing upstream iteration, history load, or commit),
the `except` arm rolls back and yields a single `error` event instead. -/
def streamEvents (chatId : Option Nat) (runnerStream : Option (List (List Char)))
    (reply : List Char) (failAfter : Option Nat) : List SEvent :=
  let ds := streamDeltas runnerStream reply
  match failAfter with
  | none => SEvent.meta chatId :: ds.map SEvent.delta ++ [SEvent.done]
  | some k => SEvent.meta chatId :: (ds.take k).map SEvent.delta ++ [SEvent.error]

/-- The payloads of the `delta` events of a wire sequence, in order. -/
def deltaPayloads (evs : List SEvent) : List (List Char) :=
  evs.filterMap (fun e =>
    match e with
    | SEvent.delta c => some c
    | _ => none)

theorem filterMap_delta_map (ds : List (List Char)) :
    (ds.map SEvent.delta).filterMap (fun e =>
      match e with
      | SEvent.delta c => some c
      | _ => none) = ds := by
  induction ds with
  | nil => rfl
  | cons d ds ih =>
      simp only [List.map_cons, List.filterMap_cons]
      simpa using ih

theorem sliceChunksAux_eq_nil_iff (fuel : Nat) (l : List Char)
    (hl : l.length ≤ fuel) : sliceChunksAux fuel l = [] ↔ l = [] := by
  match fuel, l with
  | 0, l =>
      have : l = [] := List.length_eq_zero.mp (Nat.le_zero.mp hl)
      subst this; simp [sliceChunksAux]
  | fuel + 1, [] => simp [sliceChunksAux]
  | fuel + 1, c :: cs => simp [sliceChunksAux]

theorem sliceChunksAux_flatten (fuel : Nat) :
    ∀ l : List Char, l.length ≤ fuel → (sliceChunksAux fuel l).flatten = l := by
  induction fuel with
  | zero =>
      intro l hl
      have : l = [] := List.length_eq_zero.mp (Nat.le_zero.mp hl)
      subst this; rfl
  | succ fuel ih =>
      intro l hl
      match l with
      | [] => rfl
      | c :: cs =>
          have hlen : (cs.drop 19).length ≤ fuel := by
            simp only [List.length_drop]
            simp only [List.length_cons] at hl
            omega
          simp [sliceChunksAux, ih (cs.drop 19) hlen]

theorem sliceChunks_flatten (l : List Char) : (sliceChunks l).flatten = l :=
  sliceChunksAux_flatten l.length l le_rfl

theorem sliceChunksAux_mem (fuel : Nat) :
    ∀ l : List Char, l.length ≤ fuel →
      ∀ c ∈ sliceChunksAux fuel l, c ≠ [] ∧ c.length ≤ 20 := by
  induction fuel with
  | zero => intro l hl c hc; simp [sliceChunksAux] at hc
  | succ fuel ih =>
      intro l hl c hc
      match l with
      | [] => simp [sliceChunksAux] at hc
      | x :: xs =>
          simp only [sliceChunksAux, List.mem_cons] at hc
          rcases hc with hc | hc
          · subst hc
            refine ⟨by simp, ?_⟩
            simp only [List.length_cons, List.length_take]
            omega
          · have hlen : (xs.drop 19).length ≤ fuel := by
              simp only [List.length_drop]
              simp only [List.length_cons] at hl
              omega
            exact ih (xs.drop 19) hlen c hc

theorem sliceChunks_mem (l : List Char) :
    ∀ c ∈ sliceChunks l, c ≠ [] ∧ c.length ≤ 20 :=
  sliceChunksAux_mem l.length l le_rfl

theorem sliceChunksAux_dropLast (fuel : Nat) :
    ∀ l : List Char, l.length ≤ fuel →
      ∀ c ∈ (sliceChunksAux fuel l).dropLast, c.length = 20 := by
  induction fuel with
  | zero => intro l hl c hc; simp [sliceChunksAux] at hc
  | succ fuel ih =>
      intro l hl c hc
      match l with
      | [] => simp [sliceChunksAux] at hc
      | x :: xs =>
          have hlen : (xs.drop 19).length ≤ fuel := by
            simp only [List.length_drop]
            simp only [List.length_cons] at hl
            omega
          simp only [sliceChunksAux] at hc
          by_cases hrest : sliceChunksAux fuel (xs.drop 19) = []
          · rw [hrest] at hc
            simp at hc
          · rw [List.dropLast_cons_of_ne_nil hrest, List.mem_cons] at hc
            have hne : xs.drop 19 ≠ [] :=
              fun habs => hrest (((sliceChunksAux_eq_nil_iff fuel (xs.drop 19) hlen)).mpr habs)
            have h19 : 19 < xs.length := by
              by_contra hle
              push_neg at hle
              exact hne (List.drop_eq_nil_of_le hle)
            rcases hc with hc | hc
            · subst hc
              simp [List.length_take]
              omega
            · exact ih (xs.drop 19) hlen c hc

theorem sliceChunks_dropLast (l : List Char) :
    ∀ c ∈ (sliceChunks l).dropLast, c.length = 20 :=
  sliceChunksAux_dropLast l.length l le_rfl

/-- Claim C3: for a stream that completes, the persisted assistant text is the
in-order concatenation of the delta payloads sent to the client, and when the
bot offers no fragment stream the deltas are exactly the reply sliced into
consecutive 20-character chunks (all chunks nonempty, all of length 20 except a
possibly shorter final one) whose concatenation is the original reply. -/
theorem claim_c3 (cid : Option Nat) (runnerStream : Option (List (List Char)))
    (reply : List Char) :
    persistedAssistantText runnerStream reply
      = (deltaPayloads (streamEvents cid runnerStream reply none)).flatten
  ∧ (runnerStream = none →
      streamDeltas none reply = sliceChunks reply
      ∧ (sliceChunks reply).flatten = reply
      ∧ (∀ c ∈ sliceChunks reply, c ≠ [] ∧ c.length ≤ 20)
      ∧ (∀ c ∈ (sliceChunks reply).dropLast, c.length = 20)) := by
  constructor
  · simp only [persistedAssistantText, streamEvents, deltaPayloads,
      List.filterMap_cons, List.filterMap_append, filterMap_delta_map]
    simp [List.filterMap_cons]
  · intro h
    subst h
    exact ⟨rfl, sliceChunks_flatten reply, sliceChunks_mem reply,
      sliceChunks_dropLast reply⟩

theorem claim_c3_witness :
    (none : Option (List (List Char))) = none
  ∧ persistedAssistantText none "abcdefghijklmnopqrstuvwxyz".data
      = "abcdefghijklmnopqrstuvwxyz".data
  ∧ streamDeltas none "abcdefghijklmnopqrstuvwxyz".data
      = ["abcdefghijklmnopqrst".data, "uvwxyz".data] := by
  refine ⟨rfl, ?_, by decide⟩
  have h := claim_c3 none none "abcdefghijklmnopqrstuvwxyz".data
  have h2 := (h.2 rfl).2.1
  simpa [persistedAssistantText, streamDeltas] using h2

/-- Claim C7: every streaming response is one `meta` event first (carrying the
durable or null conversation id), then a body of only `delta` events, then
exactly one terminal event: `done` when the stream completed, `error` when
generation failed after streaming began; no `delta` follows the terminal event
and no second `meta` or terminal event occurs. -/
theorem claim_c7 (cid : Option Nat) (runnerStream : Option (List (List Char)))
    (reply : List Char) (failAfter : Option Nat) :
    ∃ body : List SEvent,
      streamEvents cid runnerStream reply failAfter
        = SEvent.meta cid :: body
            ++ [match failAfter with
                | none => SEvent.done
                | some _ => SEvent.error]
      ∧ ∀ e ∈ body, ∃ c, e = SEvent.delta c := by
  cases failAfter with
  | none =>
      refine ⟨(streamDeltas runnerStream reply).map SEvent.delta, ?_, ?_⟩
      · rfl
      · intro e he
        rcases List.mem_map.mp he with ⟨c, _, hc⟩
        exact ⟨c, hc.symm⟩
  | some k =>
      refine ⟨((streamDeltas runnerStream reply).take k).map SEvent.delta, ?_, ?_⟩
      · rfl
      · intro e he
        rcases List.mem_map.mp he with ⟨c, _, hc⟩
        exact ⟨c, hc.symm⟩

/-! ## Refresh-token rotation (src/main.py `refresh_token` lines 698-726) -/

/-- A row of the `refresh_tokens` table; creation fields not read by rotation
are omitted. -/
structure RefreshRec where
  userId : Nat
  email : String
  tokenHash : String
  expiresAt : Nat
  revokedAt : Option Nat
deriving DecidableEq, Repr

/-- `REFRESH_TOKEN_TTL_DAYS = 7` converted to seconds (time is `Nat` seconds). -/
def refreshTtlSeconds : Nat := 7 * 24 * 60 * 60

/-- `db.query(RefreshToken).filter(token_hash == h).first()`. -/
def findRefresh (db : List RefreshRec) (h : String) : Option RefreshRec :=
  match db with
  | [] => none
  | r :: rest => if r.tokenHash == h then some r else findRefresh rest h

/-- `record.revoked_at = now` applied to the looked-up row (the first row whose
hash matches). -/
def setRevokedFirst (db : List RefreshRec) (h : String) (now : Nat) :
    List RefreshRec :=
  match db with
  | [] => []
  | r :: rest =>
      if r.tokenHash == h then { r with revokedAt := some now } :: rest
      else r :: setRevokedFirst rest h now

inductive RotateResult where
  | invalid
  | ok (db : List RefreshRec)
deriving DecidableEq, Repr

/-- `refresh_token` endpoint: look up by hash; 401 `invalid_refresh_token` if
absent, already revoked, or expired (`expires_at <= now`); otherwise revoke the
presented record, add a fresh record, and commit both in the single
`db.commit()`. -/
def rotateRefresh (db : List RefreshRec) (presentedHash : String) (now : Nat)
    (freshHash : String) : RotateResult :=
  match findRefresh db presentedHash with
  | none => RotateResult.invalid
  | some record =>
      if record.revokedAt.isSome then RotateResult.invalid
      else if record.expiresAt ≤ now then RotateResult.invalid
      else
        RotateResult.ok
          (setRevokedFirst db presentedHash now
            ++ [⟨record.userId, record.email, freshHash,
                 now + refreshTtlSeconds, none⟩])

/-- One rotation request (the presented token's hash, the request time, and the
hash of the freshly generated token). -/
structure RotateReq where
  presentedHash : String
  now : Nat
  freshHash : String

def applyRotate (db : List RefreshRec) (q : RotateReq) : List RefreshRec :=
  match rotateRefresh db q.presentedHash q.now q.freshHash with
  | RotateResult.ok db' => db'
  | RotateResult.invalid => db

def applyRotates (db : List RefreshRec) (qs : List RotateReq) : List RefreshRec :=
  qs.foldl applyRotate db

/-- The first record matching a hash (if any) is revoked. -/
def firstHashRevoked (db : List RefreshRec) (h : String) : Prop :=
  ∀ r, findRefresh db h = some r → r.revokedAt.isSome

theorem findRefresh_setRevokedFirst_self (db : List RefreshRec) (h : String)
    (now : Nat) (r : RefreshRec) (hf : findRefresh db h = some r) :
    findRefresh (setRevokedFirst db h now) h
      = some { r with revokedAt := some now } := by
  induction db with
  | nil => simp [findRefresh] at hf
  | cons x xs ih =>
      by_cases hx : (x.tokenHash == h) = true
      · rw [findRefresh, if_pos hx] at hf
        injection hf with hf
        subst hf
        rw [setRevokedFirst, if_pos hx, findRefresh, if_pos (by simpa using hx)]
      · rw [findRefresh, if_neg hx] at hf
        rw [setRevokedFirst, if_neg hx, findRefresh, if_neg hx]
        exact ih hf

theorem findRefresh_setRevokedFirst_other (db : List RefreshRec) (h ph : String)
    (now : Nat) (hne : ph ≠ h) :
    findRefresh (setRevokedFirst db ph now) h = findRefresh db h := by
  induction db with
  | nil => rfl
  | cons x xs ih =>
      by_cases hx : (x.tokenHash == ph) = true
      · have hxh : (x.tokenHash == h) = false := by
          have hxp : x.tokenHash = ph := by simpa using hx
          simp [hxp, hne]
        rw [setRevokedFirst, if_pos hx]
        rw [findRefresh, if_neg (by simpa using hxh), findRefresh,
          if_neg (by simp [hxh])]
      · rw [setRevokedFirst, if_neg hx]
        by_cases hxh : (x.tokenHash == h) = true
        · rw [findRefresh, if_pos hxh, findRefresh, if_pos hxh]
        · rw [findRefresh, if_neg hxh, findRefresh, if_neg hxh]
          exact ih

theorem findRefresh_append (db1 db2 : List RefreshRec) (h : String) :
    findRefresh (db1 ++ db2) h = (findRefresh db1 h).or (findRefresh db2 h) := by
  induction db1 with
  | nil => rfl
  | cons x xs ih =>
      by_cases hx : (x.tokenHash == h) = true
      · rw [List.cons_append, findRefresh, if_pos hx, findRefresh, if_pos hx]
        rfl
      · rw [List.cons_append, findRefresh, if_neg hx, findRefresh, if_neg hx]
        exact ih

theorem rotateRefresh_ok_shape (db : List RefreshRec) (h : String) (now : Nat)
    (nh : String) (db1 : List RefreshRec)
    (hok : rotateRefresh db h now nh = RotateResult.ok db1) :
    ∃ record, findRefresh db h = some record
      ∧ record.revokedAt = none ∧ now < record.expiresAt
      ∧ db1 = setRevokedFirst db h now
          ++ [⟨record.userId, record.email, nh, now + refreshTtlSeconds, none⟩] := by
  unfold rotateRefresh at hok
  cases hf : findRefresh db h with
  | none =>
      rw [hf] at hok
      simp at hok
  | some record =>
      simp only [hf] at hok
      by_cases h1 : record.revokedAt.isSome
      · simp [h1] at hok
      · by_cases h2 : record.expiresAt ≤ now
        · simp [h1, h2] at hok
        · simp only [h1, h2, if_false, Bool.false_eq_true, if_neg,
            RotateResult.ok.injEq] at hok
          refine ⟨record, rfl, ?_, by omega, hok.symm⟩
          cases hrv : record.revokedAt with
          | none => rfl
          | some t => rw [hrv] at h1; simp at h1

theorem rotateRefresh_ok_firstHashRevoked (db : List RefreshRec) (h : String)
    (now : Nat) (nh : String) (db1 : List RefreshRec)
    (hok : rotateRefresh db h now nh = RotateResult.ok db1) :
    firstHashRevoked db1 h := by
  obtain ⟨record, hf, _, _, hdb1⟩ := rotateRefresh_ok_shape db h now nh db1 hok
  intro r hr
  rw [hdb1, findRefresh_append,
    findRefresh_setRevokedFirst_self db h now record hf] at hr
  simp only [Option.or_some] at hr
  injection hr with hr
  subst hr
  rfl

theorem firstHashRevoked_preserved (db : List RefreshRec) (h : String)
    (q : RotateReq) (hfresh : q.freshHash ≠ h)
    (hrev : firstHashRevoked db h) :
    firstHashRevoked (applyRotate db q) h := by
  unfold applyRotate
  cases hres : rotateRefresh db q.presentedHash q.now q.freshHash with
  | invalid => exact hrev
  | ok db' =>
      obtain ⟨record, hf, _, _, hdb'⟩ :=
        rotateRefresh_ok_shape db q.presentedHash q.now q.freshHash db' hres
      intro r hr
      rw [hdb', findRefresh_append] at hr
      by_cases hph : q.presentedHash = h
      · subst hph
        rw [findRefresh_setRevokedFirst_self db q.presentedHash q.now record hf] at hr
        simp only [Option.or_some] at hr
        injection hr with hr
        subst hr
        rfl
      · rw [findRefresh_setRevokedFirst_other db h q.presentedHash q.now hph] at hr
        cases hfind : findRefresh db h with
        | some r0 =>
            rw [hfind] at hr
            simp only [Option.or_some] at hr
            injection hr with hr
            subst hr
            exact hrev r0 hfind
        | none =>
            rw [hfind] at hr
            simp only [Option.none_or] at hr
            rw [findRefresh] at hr
            by_cases hnh : q.freshHash = h
            · exact absurd hnh hfresh
            · rw [if_neg (by simpa using hnh)] at hr
              simp [findRefresh] at hr

theorem firstHashRevoked_invalid (db : List RefreshRec) (h : String)
    (now : Nat) (nh : String) (hrev : firstHashRevoked db h) :
    rotateRefresh db h now nh = RotateResult.invalid := by
  unfold rotateRefresh
  cases hf : findRefresh db h with
  | none => rfl
  | some record =>
      have := hrev record hf
      simp [this]

/-- Claim C2: a refresh-rotation request fails when the presented hash matches
no record, or the record is revoked, or it has expired; on success the presented
record is revoked and a fresh record is issued in the same commit (one state
transition produces both writes, a rejected request changes nothing); and the
presented token can never drive a second successful rotation, even after any
further rotations with fresh hashes. -/
theorem claim_c2 (db : List RefreshRec) (h : String) (now : Nat) (nh : String) :
    (findRefresh db h = none → rotateRefresh db h now nh = RotateResult.invalid)
  ∧ (∀ r, findRefresh db h = some r → r.revokedAt.isSome →
      rotateRefresh db h now nh = RotateResult.invalid)
  ∧ (∀ r, findRefresh db h = some r → r.expiresAt ≤ now →
      rotateRefresh db h now nh = RotateResult.invalid)
  ∧ (∀ r, findRefresh db h = some r → r.revokedAt = none → now < r.expiresAt →
      rotateRefresh db h now nh
        = RotateResult.ok
            (setRevokedFirst db h now
              ++ [⟨r.userId, r.email, nh, now + refreshTtlSeconds, none⟩]))
  ∧ (rotateRefresh db h now nh = RotateResult.invalid →
      applyRotate db ⟨h, now, nh⟩ = db)
  ∧ (∀ db1, rotateRefresh db h now nh = RotateResult.ok db1 →
      ∀ qs : List RotateReq, (∀ q ∈ qs, q.freshHash ≠ h) →
        ∀ now' nh', rotateRefresh (applyRotates db1 qs) h now' nh'
          = RotateResult.invalid) := by
  refine ⟨?_, ?_, ?_, ?_, ?_, ?_⟩
  · intro hf; unfold rotateRefresh; rw [hf]
  · intro r hf hrev; unfold rotateRefresh; simp [hf, hrev]
  · intro r hf hexp; unfold rotateRefresh; simp only [hf]
    by_cases h1 : r.revokedAt.isSome
    · simp [h1]
    · simp [h1, hexp]
  · intro r hf hrev hexp
    unfold rotateRefresh
    simp only [hf]
    rw [if_neg (by simp [hrev]), if_neg (by omega)]
  · intro hinv; unfold applyRotate; rw [hinv]
  · intro db1 hok qs hfresh now' nh'
    have hrev1 : firstHashRevoked db1 h :=
      rotateRefresh_ok_firstHashRevoked db h now nh db1 hok
    have hmain : ∀ qs' db', firstHashRevoked db' h →
        (∀ q ∈ qs', q.freshHash ≠ h) →
        firstHashRevoked (applyRotates db' qs') h := by
      intro qs'
      induction qs' with
      | nil => intro db' hdb' _; exact hdb'
      | cons q rest ih =>
          intro db' hdb' hq
          have h1 : firstHashRevoked (applyRotate db' q) h :=
            firstHashRevoked_preserved db' h q (hq q (by simp)) hdb'
          have := ih (applyRotate db' q) h1 (fun x hx => hq x (by simp [hx]))
          simpa [applyRotates, List.foldl_cons] using this
    exact firstHashRevoked_invalid _ h now' nh' (hmain qs db1 hrev1 hfresh)

theorem claim_c2_witness :
    rotateRefresh [⟨1, "u@avocarbon.com", "h1", 100, none⟩] "h1" 10 "h2"
      = RotateResult.ok
          [⟨1, "u@avocarbon.com", "h1", 100, some 10⟩,
           ⟨1, "u@avocarbon.com", "h2", 10 + refreshTtlSeconds, none⟩]
  ∧ rotateRefresh
      [⟨1, "u@avocarbon.com", "h1", 100, some 10⟩,
       ⟨1, "u@avocarbon.com", "h2", 10 + refreshTtlSeconds, none⟩] "h1" 11 "h3"
      = RotateResult.invalid := by
  constructor
  · exact (claim_c2 [⟨1, "u@avocarbon.com", "h1", 100, none⟩] "h1" 10 "h2").2.2.2.1
      ⟨1, "u@avocarbon.com", "h1", 100, none⟩ (by decide) rfl (by decide)
  · exact (claim_c2 [⟨1, "u@avocarbon.com", "h1", 100, some 10⟩,
        ⟨1, "u@avocarbon.com", "h2", 10 + refreshTtlSeconds, none⟩] "h1" 11 "h3").2.1
      ⟨1, "u@avocarbon.com", "h1", 100, some 10⟩ (by decide) (by decide)

/-! ## Password-reset tokens (src/main.py `forgot_password` lines 745-763 and
`reset_password` lines 800-821) -/

/-- A row of the `password_reset_tokens` table. -/
structure ResetRec where
  userId : Nat
  email : String
  tokenHash : String
  expiresAt : Nat
  usedAt : Option Nat
deriving DecidableEq, Repr

/-- `RESET_TOKEN_TTL_HOURS = 1` converted to seconds. -/
def resetTtlSeconds : Nat := 60 * 60

/-- A `chatbot_users` row, reduced to the fields `reset_password` reads. -/
structure AppUser where
  id : Nat
  email : String
deriving DecidableEq, Repr

def pyLowerStr (s : String) : String := ⟨s.data.map Char.toLower⟩

/-- The bulk `UPDATE` of `forgot_password`: every token row of this email with
`used_at IS NULL` gets `used_at = now`. -/
def invalidatePriorResets (db : List ResetRec) (email : String) (now : Nat) :
    List ResetRec :=
  db.map (fun r =>
    if r.email == email && r.usedAt.isNone then { r with usedAt := some now }
    else r)

/-- `forgot_password` after the user-exists check: invalidate all prior unused
tokens for the email, then add one fresh record, in a single commit. -/
def issueReset (db : List ResetRec) (userId : Nat) (email : String)
    (tokenHash : String) (now : Nat) : List ResetRec :=
  invalidatePriorResets db email now
    ++ [⟨userId, email, tokenHash, now + resetTtlSeconds, none⟩]

/-- The lookup filter of `reset_password`: matching hash, `used_at IS NULL`,
`expires_at > now`. -/
def resetMatch (h : String) (now : Nat) (r : ResetRec) : Bool :=
  r.tokenHash == h && r.usedAt.isNone && decide (now < r.expiresAt)

/-- `db.query(PasswordResetToken).filter(...).first()`. -/
def findReset (db : List ResetRec) (h : String) (now : Nat) : Option ResetRec :=
  match db with
  | [] => none
  | r :: rest => if resetMatch h now r then some r else findReset rest h now

/-- `record.used_at = now` applied to the looked-up row. -/
def markUsedFirst (db : List ResetRec) (h : String) (now : Nat) : List ResetRec :=
  match db with
  | [] => []
  | r :: rest =>
      if resetMatch h now r then { r with usedAt := some now } :: rest
      else r :: markUsedFirst rest h now

/-- `if email and user.email.lower() != email` from `reset_password`: a claimed
email that disagrees with the user row (an absent claim never mismatches). -/
def emailMismatch (emailClaim : Option String) (user : AppUser) : Bool :=
  match emailClaim with
  | some e => pyLowerStr user.email != e
  | none => false

/-- `reset_password` after payload validation: find a matching unused unexpired
record, 400 `invalid_or_expired_token` if none; 404 if the owning user row is
gone; 400 `email_mismatch` if a claimed email disagrees; otherwise mark the
record used (the password-hash update on the user row is not part of the token
state).  `none` is any failure response; `some db'` is success with the new
token table. -/
def consumeReset (users : List AppUser) (db : List ResetRec) (h : String)
    (emailClaim : Option String) (now : Nat) : Option (List ResetRec) :=
  match findReset db h now with
  | none => none
  | some record =>
      match users.find? (fun u => u.id == record.userId) with
      | none => none
      | some user =>
          if emailMismatch emailClaim user then none
          else some (markUsedFirst db h now)

/-- The reset-token operations an execution can perform on the table. -/
inductive ResetOp where
  | issue (userId : Nat) (email : String) (tokenHash : String) (now : Nat)
  | consume (tokenHash : String) (emailClaim : Option String) (now : Nat)

def applyResetOp (users : List AppUser) (db : List ResetRec) :
    ResetOp → List ResetRec
  | ResetOp.issue uid e h now => issueReset db uid e h now
  | ResetOp.consume h ec now => (consumeReset users db h ec now).getD db

def applyResetOps (users : List AppUser) (db : List ResetRec)
    (ops : List ResetOp) : List ResetRec :=
  ops.foldl (applyResetOp users) db

/-- Rows produced by the bulk invalidation: any row for the email ends up used. -/
theorem invalidatePrior_mem (db : List ResetRec) (e : String) (now : Nat) :
    ∀ r ∈ invalidatePriorResets db e now, r.email = e → r.usedAt.isSome := by
  intro r hr hre
  rcases List.mem_map.mp hr with ⟨r0, _, hmap⟩
  by_cases hcond : (r0.email == e && r0.usedAt.isNone) = true
  · rw [if_pos hcond] at hmap
    rw [← hmap]
    simp
  · rw [if_neg hcond] at hmap
    subst hmap
    simp only [Bool.and_eq_true, not_and, Bool.not_eq_true] at hcond
    cases hu : r0.usedAt with
    | some t => simp
    | none =>
        exfalso
        have h1 : (r0.email == e) = true := by simp [hre]
        have := hcond h1
        rw [hu] at this
        simp at this

/-- Number of unused (hence possibly valid) reset rows for an email. -/
def unusedCount (db : List ResetRec) (email : String) : Nat :=
  db.countP (fun r => r.email == email && r.usedAt.isNone)

theorem unusedCount_invalidate_self (db : List ResetRec) (e : String) (now : Nat) :
    unusedCount (invalidatePriorResets db e now) e = 0 := by
  unfold unusedCount
  rw [List.countP_eq_zero]
  intro r hr
  by_cases hre : r.email = e
  · have := invalidatePrior_mem db e now r hr hre
    simp [this]
    cases hu : r.usedAt with
    | none => rw [hu] at this; simp at this
    | some t => simp
  · simp [hre]

theorem unusedCount_invalidate_other (db : List ResetRec) (e e' : String)
    (now : Nat) (hne : e' ≠ e) :
    unusedCount (invalidatePriorResets db e now) e' = unusedCount db e' := by
  unfold unusedCount invalidatePriorResets
  rw [List.countP_map]
  apply List.countP_congr
  intro r _
  by_cases hcond : (r.email == e && r.usedAt.isNone) = true
  · have hre : r.email = e := by
      have := ((Bool.and_eq_true _ _).mp hcond).1
      simpa using this
    have hre' : (r.email == e') = false := by
      simp [hre]
      intro habs
      exact hne habs.symm
    simp [Function.comp, hcond, hre']
  · simp [Function.comp, hcond]

theorem unusedCount_issue_self (db : List ResetRec) (uid : Nat) (e : String)
    (h : String) (now : Nat) :
    unusedCount (issueReset db uid e h now) e = 1 := by
  unfold issueReset
  unfold unusedCount at *
  rw [List.countP_append]
  have h0 := unusedCount_invalidate_self db e now
  unfold unusedCount at h0
  rw [h0]
  simp

theorem unusedCount_issue_other (db : List ResetRec) (uid : Nat) (e e' : String)
    (h : String) (now : Nat) (hne : e' ≠ e) :
    unusedCount (issueReset db uid e h now) e' = unusedCount db e' := by
  unfold issueReset
  unfold unusedCount
  rw [List.countP_append]
  have h0 := unusedCount_invalidate_other db e e' now hne
  unfold unusedCount at h0
  rw [h0]
  have : (e == e') = false := by
    simp
    intro habs
    exact hne habs.symm
  simp [this]

theorem unusedCount_markUsed_le (db : List ResetRec) (h : String) (now : Nat)
    (e : String) :
    unusedCount (markUsedFirst db h now) e ≤ unusedCount db e := by
  induction db with
  | nil => exact Nat.le_refl _
  | cons r rest ih =>
      unfold unusedCount at ih ⊢
      rw [markUsedFirst]
      by_cases hr : resetMatch h now r = true
      · rw [if_pos hr]
        have hstep : List.countP (fun x => x.email == e && x.usedAt.isNone)
            ({ r with usedAt := some now } :: rest)
            = List.countP (fun x => x.email == e && x.usedAt.isNone) rest := by
          rw [List.countP_cons]
          simp
        rw [hstep, List.countP_cons]
        exact Nat.le_add_right _ _
      · rw [if_neg hr]
        simp only [List.countP_cons]
        omega

theorem consumeReset_some_shape (users : List AppUser) (db : List ResetRec)
    (h : String) (ec : Option String) (now : Nat) (db' : List ResetRec)
    (hc : consumeReset users db h ec now = some db') :
    ∃ r, findReset db h now = some r ∧ db' = markUsedFirst db h now := by
  unfold consumeReset at hc
  cases hfind : findReset db h now with
  | none =>
      simp only [hfind] at hc
      simp at hc
  | some record =>
      refine ⟨record, rfl, ?_⟩
      simp only [hfind] at hc
      cases hu : users.find? (fun u => u.id == record.userId) with
      | none =>
          simp only [hu] at hc
          simp at hc
      | some user =>
          simp only [hu] at hc
          by_cases hm : emailMismatch ec user = true
          · rw [if_pos hm] at hc
            simp at hc
          · rw [if_neg hm] at hc
            injection hc with hc
            exact hc.symm

theorem unusedCount_consume_le (users : List AppUser) (db : List ResetRec)
    (h : String) (ec : Option String) (now : Nat) (e : String) :
    unusedCount ((consumeReset users db h ec now).getD db) e ≤ unusedCount db e := by
  cases hc : consumeReset users db h ec now with
  | none => exact Nat.le_refl _
  | some db' =>
      obtain ⟨r, _, hdb'⟩ := consumeReset_some_shape users db h ec now db' hc
      simp only [Option.getD_some]
      rw [hdb']
      exact unusedCount_markUsed_le db h now e

theorem unusedCount_reachable (users : List AppUser) (ops : List ResetOp)
    (e : String) : unusedCount (applyResetOps users [] ops) e ≤ 1 := by
  have hmain : ∀ ops' db, (∀ e', unusedCount db e' ≤ 1) →
      ∀ e', unusedCount (applyResetOps users db ops') e' ≤ 1 := by
    intro ops'
    induction ops' with
    | nil => intro db hdb e'; exact hdb e'
    | cons op rest ih =>
        intro db hdb e'
        have hstep : ∀ e'', unusedCount (applyResetOp users db op) e'' ≤ 1 := by
          intro e''
          cases op with
          | issue uid eo ho no =>
              by_cases he : e'' = eo
              · subst he
                simp [applyResetOp, unusedCount_issue_self]
              · simp only [applyResetOp]
                rw [unusedCount_issue_other db uid eo e'' ho no he]
                exact hdb e''
          | consume ho eco no =>
              simp only [applyResetOp]
              exact Nat.le_trans (unusedCount_consume_le users db ho eco no e'') (hdb e'')
        have := ih (applyResetOp users db op) hstep e'
        simpa [applyResetOps, List.foldl_cons] using this
  exact hmain ops [] (fun e' => by simp [unusedCount]) e

/-- The count of rows carrying a given token hash. -/
def hashCount (db : List ResetRec) (h : String) : Nat :=
  (db.filter (fun r => r.tokenHash == h)).length

theorem findReset_mem (db : List ResetRec) (h : String) (now : Nat)
    (r : ResetRec) (hf : findReset db h now = some r) :
    r ∈ db ∧ resetMatch h now r = true := by
  induction db with
  | nil => simp [findReset] at hf
  | cons x xs ih =>
      by_cases hx : resetMatch h now x = true
      · rw [findReset, if_pos hx] at hf
        injection hf with hf
        subst hf
        exact ⟨by simp, hx⟩
      · rw [findReset, if_neg hx] at hf
        obtain ⟨hmem, hmatch⟩ := ih hf
        exact ⟨by simp [hmem], hmatch⟩

theorem markUsedFirst_no_match (h : String) (now : Nat) :
    ∀ (db : List ResetRec) (r : ResetRec), findReset db h now = some r →
      hashCount db h ≤ 1 →
      ∀ now' x, x ∈ markUsedFirst db h now → resetMatch h now' x = false := by
  intro db
  induction db with
  | nil => intro r hf; simp [findReset] at hf
  | cons y ys ih =>
      intro r hf huniq now' x hx
      by_cases hy : resetMatch h now y = true
      · rw [markUsedFirst, if_pos hy] at hx
        rcases List.mem_cons.mp hx with hx | hx
        · subst hx
          simp [resetMatch]
        · have hyh : (y.tokenHash == h) = true :=
            ((Bool.and_eq_true _ _).mp ((Bool.and_eq_true _ _).mp hy).1).1
          have hcount : hashCount ys h = 0 := by
            simp only [hashCount, List.filter_cons, hyh, if_pos,
              List.length_cons] at huniq ⊢
            omega
          have hnil : ys.filter (fun t => t.tokenHash == h) = [] :=
            List.length_eq_zero.mp hcount
          have hxh : (x.tokenHash == h) = false := by
            by_contra habs
            have hmem : x ∈ ys.filter (fun t => t.tokenHash == h) :=
              List.mem_filter.mpr ⟨hx, by simpa using habs⟩
            rw [hnil] at hmem
            simp at hmem
          simp [resetMatch, hxh]
      · rw [markUsedFirst, if_neg hy] at hx
        rw [findReset, if_neg hy] at hf
        obtain ⟨hrm, hrmatch⟩ := findReset_mem ys h now r hf
        have hrh : (r.tokenHash == h) = true :=
          ((Bool.and_eq_true _ _).mp ((Bool.and_eq_true _ _).mp hrmatch).1).1
        have hys_le : hashCount ys h ≤ 1 := by
          simp only [hashCount, List.filter_cons] at huniq ⊢
          by_cases hyh : (y.tokenHash == h) = true
          · rw [if_pos hyh] at huniq
            simp only [List.length_cons] at huniq
            omega
          · rw [if_neg hyh] at huniq
            exact huniq
        rcases List.mem_cons.mp hx with hx | hx
        · subst hx
          by_cases hyh : (x.tokenHash == h) = true
          · exfalso
            have hr1 : r ∈ ys.filter (fun t => t.tokenHash == h) :=
              List.mem_filter.mpr ⟨hrm, hrh⟩
            have hpos : 0 < (ys.filter (fun t => t.tokenHash == h)).length :=
              List.length_pos.mpr (List.ne_nil_of_mem hr1)
            simp only [hashCount, List.filter_cons, hyh, if_pos,
              List.length_cons] at huniq
            omega
          · simp [resetMatch, hyh]
        · exact ih r hf hys_le now' x hx

theorem findReset_eq_none (db : List ResetRec) (h : String) (now : Nat)
    (hall : ∀ x ∈ db, resetMatch h now x = false) :
    findReset db h now = none := by
  induction db with
  | nil => rfl
  | cons y ys ih =>
      rw [findReset, if_neg (by simp [hall y (by simp)])]
      exact ih (fun x hx => hall x (by simp [hx]))

theorem markUsedFirst_marks (h : String) (now : Nat) :
    ∀ (db : List ResetRec) (r : ResetRec), findReset db h now = some r →
      { r with usedAt := some now } ∈ markUsedFirst db h now := by
  intro db
  induction db with
  | nil => intro r hf; simp [findReset] at hf
  | cons y ys ih =>
      intro r hf
      by_cases hy : resetMatch h now y = true
      · rw [findReset, if_pos hy] at hf
        injection hf with hf
        subst hf
        rw [markUsedFirst, if_pos hy]
        simp
      · rw [findReset, if_neg hy] at hf
        rw [markUsedFirst, if_neg hy]
        simpa using Or.inr (ih r hf)

/-- Claim C5: at most one reset token per email is ever unused when starting
from an empty table; issuing first marks every prior unused token for the email
used and appends the one fresh record in the same commit; consuming succeeds
only when a matching unused, unexpired record exists and marks that record used;
hence a second consume of the same token always fails. -/
theorem claim_c5 (users : List AppUser) (db : List ResetRec) (uid : Nat)
    (e : String) (h : String) (ec : Option String) (now : Nat) :
    (∀ ops : List ResetOp, ∀ e', unusedCount (applyResetOps users [] ops) e' ≤ 1)
  ∧ (issueReset db uid e h now
      = invalidatePriorResets db e now ++ [⟨uid, e, h, now + resetTtlSeconds, none⟩]
      ∧ (∀ r ∈ invalidatePriorResets db e now, r.email = e → r.usedAt.isSome)
      ∧ unusedCount (issueReset db uid e h now) e = 1)
  ∧ (∀ db', consumeReset users db h ec now = some db' →
      (∃ r ∈ db, r.tokenHash = h ∧ r.usedAt = none ∧ now < r.expiresAt)
      ∧ db' = markUsedFirst db h now
      ∧ ∃ r, findReset db h now = some r
          ∧ { r with usedAt := some now } ∈ db')
  ∧ (hashCount db h ≤ 1 → ∀ db', consumeReset users db h ec now = some db' →
      ∀ users' ec' now', consumeReset users' db' h ec' now' = none) := by
  refine ⟨fun ops e' => unusedCount_reachable users ops e',
    ⟨rfl, invalidatePrior_mem db e now, unusedCount_issue_self db uid e h now⟩,
    ?_, ?_⟩
  · intro db' hc
    obtain ⟨r, hf, hdb'⟩ := consumeReset_some_shape users db h ec now db' hc
    obtain ⟨hmem, hmatch⟩ := findReset_mem db h now r hf
    simp only [resetMatch, Bool.and_eq_true, beq_iff_eq, Option.isNone_iff_eq_none,
      decide_eq_true_eq] at hmatch
    refine ⟨⟨r, hmem, hmatch.1.1, hmatch.1.2, hmatch.2⟩, hdb', r, hf, ?_⟩
    rw [hdb']
    exact markUsedFirst_marks h now db r hf
  · intro huniq db' hc users' ec' now'
    obtain ⟨r, hf, hdb'⟩ := consumeReset_some_shape users db h ec now db' hc
    have hnone : findReset db' h now' = none := by
      rw [hdb']
      exact findReset_eq_none _ h now'
        (fun x hx => markUsedFirst_no_match h now db r hf huniq now' x hx)
    unfold consumeReset
    rw [hnone]

theorem claim_c5_witness :
    issueReset [] 1 "u@avocarbon.com" "th" 0
      = [⟨1, "u@avocarbon.com", "th", resetTtlSeconds, none⟩]
  ∧ consumeReset [⟨1, "u@avocarbon.com"⟩]
      [⟨1, "u@avocarbon.com", "th", resetTtlSeconds, none⟩] "th" none 10
      = some [⟨1, "u@avocarbon.com", "th", resetTtlSeconds, some 10⟩]
  ∧ consumeReset [⟨1, "u@avocarbon.com"⟩]
      [⟨1, "u@avocarbon.com", "th", resetTtlSeconds, some 10⟩] "th" none 11
      = none := by
  refine ⟨by decide, by decide, ?_⟩
  exact (claim_c5 [⟨1, "u@avocarbon.com"⟩]
      [⟨1, "u@avocarbon.com", "th", resetTtlSeconds, none⟩] 1 "u@avocarbon.com"
      "th" none 10).2.2.2 (by decide)
    [⟨1, "u@avocarbon.com", "th", resetTtlSeconds, some 10⟩] (by decide)
    [⟨1, "u@avocarbon.com"⟩] none 11

/-! ## Conversation soft delete (src/main.py `history_delete` lines 1311-1342) -/

/-- A `conversations` row, reduced to the fields `history_delete` reads or
writes (title, stage, ui_lang and created_at are untouched by deletion). -/
structure Conv where
  id : Nat
  email : String
  botId : String
  isDeleted : Bool
  updatedAt : Nat
deriving DecidableEq, Repr

/-- The lookup filter used by `history_delete` (and every other chat lookup):
id, owner email, bot id, and `is_deleted == False`. -/
def liveMatch (chatId : Nat) (email botId : String) (c : Conv) : Bool :=
  c.id == chatId && c.email == email && c.botId == botId && c.isDeleted == false

def findConv (convs : List Conv) (chatId : Nat) (email botId : String) :
    Option Conv :=
  match convs with
  | [] => none
  | c :: rest =>
      if liveMatch chatId email botId c then some c
      else findConv rest chatId email botId

/-- `conv.is_deleted = True; conv.updated_at = utcnow()` on the looked-up row. -/
def markDeletedFirst (convs : List Conv) (chatId : Nat) (email botId : String)
    (now : Nat) : List Conv :=
  match convs with
  | [] => []
  | c :: rest =>
      if liveMatch chatId email botId c then
        { c with isDeleted := true, updatedAt := now } :: rest
      else c :: markDeletedFirst rest chatId email botId now

inductive DeleteResult where
  | unknownBot
  | ephemeralOk
  | notFound
  | ok (convs : List Conv)
deriving DecidableEq, Repr

/-- `history_delete`: 400 for an unknown bot id, a storage-free 200 for an
ephemeral bot, 404 `chat not found` when no live owned conversation matches,
otherwise mark the row deleted, bump `updated_at` and commit. -/
def historyDelete (convs : List Conv) (botId : String) (chatId : Nat)
    (email : String) (now : Nat) : DeleteResult :=
  if !(botsKeys.contains botId) then DeleteResult.unknownBot
  else if isEphemeralBot botId then DeleteResult.ephemeralOk
  else
    match findConv convs chatId email botId with
    | none => DeleteResult.notFound
    | some _ => DeleteResult.ok (markDeletedFirst convs chatId email botId now)

def c6Convs : List Conv := [⟨1, "u@avocarbon.com", "personal", false, 0⟩]

def c6After : List Conv := [⟨1, "u@avocarbon.com", "personal", true, 5⟩]

/-- Claim C6 counterexample: the first soft delete of an owned live conversation
succeeds, but the asserted idempotence fails: the identical second call returns
404 `chat not found`, because the lookup excludes rows with the deleted flag
set. -/
theorem claim_c6_counterexample :
    historyDelete c6Convs "personal" 1 "u@avocarbon.com" 5 = DeleteResult.ok c6After
  ∧ historyDelete c6After "personal" 1 "u@avocarbon.com" 6 = DeleteResult.notFound := by
  constructor <;> rfl

theorem markDeletedFirst_length (convs : List Conv) (chatId : Nat)
    (email botId : String) (now : Nat) :
    (markDeletedFirst convs chatId email botId now).length = convs.length := by
  induction convs with
  | nil => rfl
  | cons c rest ih =>
      rw [markDeletedFirst]
      by_cases hc : liveMatch chatId email botId c = true
      · rw [if_pos hc]
        simp
      · rw [if_neg hc]
        simpa using ih

theorem markDeletedFirst_ids (convs : List Conv) (chatId : Nat)
    (email botId : String) (now : Nat) :
    (markDeletedFirst convs chatId email botId now).map (fun c => c.id)
      = convs.map (fun c => c.id) := by
  induction convs with
  | nil => rfl
  | cons c rest ih =>
      rw [markDeletedFirst]
      by_cases hc : liveMatch chatId email botId c = true
      · rw [if_pos hc]
        simp
      · rw [if_neg hc]
        simpa using ih

theorem markDeletedFirst_marks (convs : List Conv) (chatId : Nat)
    (email botId : String) (now : Nat) (c : Conv)
    (hf : findConv convs chatId email botId = some c) :
    { c with isDeleted := true, updatedAt := now }
      ∈ markDeletedFirst convs chatId email botId now := by
  induction convs with
  | nil => simp [findConv] at hf
  | cons x xs ih =>
      by_cases hx : liveMatch chatId email botId x = true
      · rw [findConv, if_pos hx] at hf
        injection hf with hf
        subst hf
        rw [markDeletedFirst, if_pos hx]
        simp
      · rw [findConv, if_neg hx] at hf
        rw [markDeletedFirst, if_neg hx]
        simpa using Or.inr (ih hf)

/-- The id-uniqueness a relational primary key gives: at most one row per id. -/
def idCount (convs : List Conv) (chatId : Nat) : Nat :=
  convs.countP (fun c => c.id == chatId)

theorem findConv_mem (convs : List Conv) (chatId : Nat) (email botId : String)
    (c : Conv) (hf : findConv convs chatId email botId = some c) :
    c ∈ convs ∧ liveMatch chatId email botId c = true := by
  induction convs with
  | nil => simp [findConv] at hf
  | cons x xs ih =>
      by_cases hx : liveMatch chatId email botId x = true
      · rw [findConv, if_pos hx] at hf
        injection hf with hf
        subst hf
        exact ⟨by simp, hx⟩
      · rw [findConv, if_neg hx] at hf
        obtain ⟨hm, hmatch⟩ := ih hf
        exact ⟨by simp [hm], hmatch⟩

theorem markDeletedFirst_no_live (chatId : Nat) (email botId : String)
    (now : Nat) :
    ∀ (convs : List Conv) (c : Conv),
      findConv convs chatId email botId = some c →
      idCount convs chatId ≤ 1 →
      ∀ x ∈ markDeletedFirst convs chatId email botId now,
        liveMatch chatId email botId x = false := by
  intro convs
  induction convs with
  | nil => intro c hf; simp [findConv] at hf
  | cons y ys ih =>
      intro c hf huniq x hx
      by_cases hy : liveMatch chatId email botId y = true
      · rw [markDeletedFirst, if_pos hy] at hx
        rcases List.mem_cons.mp hx with hx | hx
        · subst hx
          simp [liveMatch]
        · have hyid : (y.id == chatId) = true :=
            (((Bool.and_eq_true _ _).mp
              ((Bool.and_eq_true _ _).mp
                ((Bool.and_eq_true _ _).mp hy).1).1)).1
          have hzero : idCount ys chatId = 0 := by
            simp only [idCount, List.countP_cons, hyid, if_pos] at huniq ⊢
            omega
          have hxid : (x.id == chatId) = false := by
            by_contra habs
            have h1 : 0 < idCount ys chatId := by
              rw [idCount, List.countP_pos_iff]
              exact ⟨x, hx, by simpa using habs⟩
            omega
          simp [liveMatch, hxid]
      · rw [markDeletedFirst, if_neg hy] at hx
        rw [findConv, if_neg hy] at hf
        obtain ⟨hcm, hcmatch⟩ := findConv_mem ys chatId email botId c hf
        have hcid : (c.id == chatId) = true :=
          (((Bool.and_eq_true _ _).mp
            ((Bool.and_eq_true _ _).mp
              ((Bool.and_eq_true _ _).mp hcmatch).1).1)).1
        have hys_le : idCount ys chatId ≤ 1 := by
          simp only [idCount, List.countP_cons] at huniq ⊢
          by_cases hyid : (y.id == chatId) = true
          · rw [if_pos hyid] at huniq
            omega
          · rw [if_neg hyid] at huniq
            omega
        rcases List.mem_cons.mp hx with hx | hx
        · subst hx
          by_cases hxid : (x.id == chatId) = true
          · exfalso
            have h1 : 0 < idCount ys chatId := by
              rw [idCount, List.countP_pos_iff]
              exact ⟨c, hcm, by simpa using hcid⟩
            simp only [idCount, List.countP_cons, hxid, if_pos] at huniq
            simp only [idCount] at h1
            omega
          · simp [liveMatch, hxid]
        · exact ih c hf hys_le x hx

theorem findConv_eq_none (convs : List Conv) (chatId : Nat)
    (email botId : String)
    (hall : ∀ x ∈ convs, liveMatch chatId email botId x = false) :
    findConv convs chatId email botId = none := by
  induction convs with
  | nil => rfl
  | cons y ys ih =>
      rw [findConv, if_neg (by simp [hall y (by simp)])]
      exact ih (fun x hx => hall x (by simp [hx]))

/-- Claim C6 (amended): soft delete marks the looked-up conversation deleted and
bumps `updated_at` without removing any row (same row count, same ids), but it
is not idempotent for the caller: the first call succeeds and any repeated call
on the same conversation returns 404 `chat not found`, because chat lookups
filter on `is_deleted == False`. -/
theorem claim_c6_amended (convs : List Conv) (botId : String) (chatId : Nat)
    (email : String) (now now' : Nat) (c : Conv)
    (hbot : botId ∈ botsKeys)
    (hf : findConv convs chatId email botId = some c)
    (huniq : idCount convs chatId ≤ 1) :
    historyDelete convs botId chatId email now
      = DeleteResult.ok (markDeletedFirst convs chatId email botId now)
  ∧ (markDeletedFirst convs chatId email botId now).length = convs.length
  ∧ (markDeletedFirst convs chatId email botId now).map (fun c => c.id)
      = convs.map (fun c => c.id)
  ∧ { c with isDeleted := true, updatedAt := now }
      ∈ markDeletedFirst convs chatId email botId now
  ∧ historyDelete (markDeletedFirst convs chatId email botId now) botId chatId
      email now' = DeleteResult.notFound := by
  have hcont : botsKeys.contains botId = true := by simpa using hbot
  have heph := mem_botsKeys_not_ephemeral botId hbot
  refine ⟨?_, markDeletedFirst_length convs chatId email botId now,
    markDeletedFirst_ids convs chatId email botId now,
    markDeletedFirst_marks convs chatId email botId now c hf, ?_⟩
  · unfold historyDelete
    rw [hcont]
    simp only [Bool.not_true, Bool.false_eq_true, if_neg, heph]
    rw [hf]
    simp
  · unfold historyDelete
    rw [hcont]
    simp only [Bool.not_true, Bool.false_eq_true, if_neg, heph]
    rw [findConv_eq_none _ chatId email botId
      (fun x hx => markDeletedFirst_no_live chatId email botId now convs c hf huniq x hx)]
    simp

theorem claim_c6_amended_witness :
    historyDelete c6Convs "personal" 1 "u@avocarbon.com" 5
      = DeleteResult.ok c6After
  ∧ historyDelete c6After "personal" 1 "u@avocarbon.com" 6
      = DeleteResult.notFound := by
  have h := claim_c6_amended c6Convs "personal" 1 "u@avocarbon.com" 5 6
    ⟨1, "u@avocarbon.com", "personal", false, 0⟩ (by decide) (by decide) (by decide)
  refine ⟨?_, ?_⟩
  · have h1 := h.1
    have h2 : markDeletedFirst c6Convs 1 "u@avocarbon.com" "personal" 5 = c6After := by
      decide
    rw [h2] at h1
    exact h1
  · have h5 := h.2.2.2.2
    have h2 : markDeletedFirst c6Convs 1 "u@avocarbon.com" "personal" 5 = c6After := by
      decide
    rw [h2] at h5
    exact h5

/-! ## Bounded history loading (src/main.py `chat_api` lines 923-931 and
`chat_api_stream` lines 1429-1436) -/

/-- A `messages` row reduced to the selection-relevant fields: the query
`ORDER BY created_at ASC LIMIT 60` reads only `created_at` (role and content
ride along unchanged and are omitted). -/
structure HMsg where
  id : Nat
  createdAt : Nat
deriving DecidableEq, Repr

/-- The `limit(60)` of the history query. -/
def histLimit : Nat := 60

/-- Insert into an ascending-by-`created_at` list, after any equal keys (a
stable realization of the storage engine ORDER BY). -/
def insertByCreatedAt (m : HMsg) : List HMsg → List HMsg
  | [] => [m]
  | x :: xs =>
      if m.createdAt < x.createdAt then m :: x :: xs
      else x :: insertByCreatedAt m xs

/-- `ORDER BY created_at ASC` over the conversation's message rows. -/
def sortByCreatedAt (l : List HMsg) : List HMsg :=
  l.foldl (fun acc m => insertByCreatedAt m acc) []

/-- The history handed to the bot invocation context:
`order_by(Message.created_at.asc()).limit(60)`. -/
def loadTurnHistory (msgs : List HMsg) : List HMsg :=
  (sortByCreatedAt msgs).take histLimit

/-- Modelled from the claim's words: the most recent 60 messages of the
conversation in creation-time order. -/
def claimMostRecent (msgs : List HMsg) : List HMsg :=
  (sortByCreatedAt msgs).drop ((sortByCreatedAt msgs).length - histLimit)

def c9Msgs : List HMsg := (List.range 61).map (fun i => ⟨i, i⟩)

/-- Claim C9 counterexample: with 61 messages the loaded history is the earliest
60 rows (ascending order plus `LIMIT 60`), not the most recent 60 the claim
asserts — the two selections differ on this conversation. -/
theorem claim_c9_counterexample :
    c9Msgs.length = 61
  ∧ loadTurnHistory c9Msgs ≠ claimMostRecent c9Msgs
  ∧ (loadTurnHistory c9Msgs).head? = some ⟨0, 0⟩
  ∧ (claimMostRecent c9Msgs).head? = some ⟨1, 1⟩ := by
  refine ⟨by decide, ?_, by decide, by decide⟩
  intro habs
  have h1 : (loadTurnHistory c9Msgs).head? = some ⟨0, 0⟩ := by decide
  have h2 : (claimMostRecent c9Msgs).head? = some ⟨1, 1⟩ := by decide
  rw [habs, h2] at h1
  simp at h1

theorem insertByCreatedAt_perm (m : HMsg) (l : List HMsg) :
    List.Perm (insertByCreatedAt m l) (m :: l) := by
  induction l with
  | nil => rfl
  | cons x xs ih =>
      rw [insertByCreatedAt]
      by_cases hc : m.createdAt < x.createdAt
      · rw [if_pos hc]
      · rw [if_neg hc]
        exact List.Perm.trans (List.Perm.cons x ih) (List.Perm.swap m x xs)

theorem sortByCreatedAt_perm_aux (l acc : List HMsg) :
    List.Perm (l.foldl (fun a m => insertByCreatedAt m a) acc) (acc ++ l) := by
  induction l generalizing acc with
  | nil => simp
  | cons m rest ih =>
      rw [List.foldl_cons]
      have h1 := ih (insertByCreatedAt m acc)
      have h2 : List.Perm (insertByCreatedAt m acc ++ rest) ((m :: acc) ++ rest) :=
        List.Perm.append_right rest (insertByCreatedAt_perm m acc)
      have h3 : List.Perm ((m :: acc) ++ rest) (acc ++ m :: rest) := by
        have hmid : List.Perm (acc ++ m :: rest) (m :: (acc ++ rest)) :=
          List.perm_middle
        simpa using hmid.symm
      exact h1.trans (h2.trans h3)

theorem sortByCreatedAt_perm (l : List HMsg) :
    List.Perm (sortByCreatedAt l) l := by
  simpa using sortByCreatedAt_perm_aux l []

theorem insertByCreatedAt_all_le (m : HMsg) (acc : List HMsg)
    (h : ∀ x ∈ acc, x.createdAt ≤ m.createdAt) :
    insertByCreatedAt m acc = acc ++ [m] := by
  induction acc with
  | nil => rfl
  | cons x xs ih =>
      rw [insertByCreatedAt]
      have hx : x.createdAt ≤ m.createdAt := h x (by simp)
      rw [if_neg (by omega)]
      rw [ih (fun y hy => h y (by simp [hy]))]
      simp

theorem sortByCreatedAt_sorted_id_aux (l acc : List HMsg)
    (h : List.Pairwise (fun a b => a.createdAt ≤ b.createdAt) (acc ++ l)) :
    l.foldl (fun a m => insertByCreatedAt m a) acc = acc ++ l := by
  induction l generalizing acc with
  | nil => simp
  | cons m rest ih =>
      rw [List.foldl_cons]
      have hacc : ∀ x ∈ acc, x.createdAt ≤ m.createdAt := by
        intro x hx
        have := (List.pairwise_append.mp h).2.2 x hx m (by simp)
        exact this
      rw [insertByCreatedAt_all_le m acc hacc]
      have hre : acc ++ m :: rest = (acc ++ [m]) ++ rest := by
        simp
      rw [hre] at h
      rw [ih (acc ++ [m]) h]
      simp

theorem sortByCreatedAt_sorted_id (l : List HMsg)
    (h : List.Pairwise (fun a b => a.createdAt ≤ b.createdAt) l) :
    sortByCreatedAt l = l := by
  have := sortByCreatedAt_sorted_id_aux l [] (by simpa using h)
  simpa [sortByCreatedAt] using this

/-- Claim C9 (amended): the history loaded for the bot invocation is bounded at
60 messages; it is a permutation-respecting ascending selection, and when the
conversation's rows are in ascending creation order it equals the EARLIEST 60
messages (`ORDER BY created_at ASC LIMIT 60` takes the first rows of the
ascending order, not the most recent ones). -/
theorem claim_c9_amended (msgs : List HMsg)
    (hs : List.Pairwise (fun a b => a.createdAt ≤ b.createdAt) msgs) :
    (loadTurnHistory msgs).length ≤ 60
  ∧ List.Perm (sortByCreatedAt msgs) msgs
  ∧ loadTurnHistory msgs = msgs.take 60 := by
  refine ⟨?_, sortByCreatedAt_perm msgs, ?_⟩
  · simp [loadTurnHistory, histLimit]
  · rw [loadTurnHistory, sortByCreatedAt_sorted_id msgs hs]
    rfl

theorem claim_c9_amended_witness :
    List.Pairwise (fun a b => a.createdAt ≤ b.createdAt) c9Msgs
  ∧ loadTurnHistory c9Msgs = c9Msgs.take 60 := by
  have h := claim_c9_amended c9Msgs (by decide)
  exact ⟨by decide, h.2.2⟩

/-! ## Text helpers shared by title derivation (src/main.py lines 266-335) -/

/-- Python whitespace for `str.split()` / `str.strip()` (ASCII approximation). -/
def pyIsWs (c : Char) : Bool := c.isWhitespace

/-- Structural worker for Python `str.split()` with no separator: skip
whitespace, take maximal nonwhitespace runs.  `fuel ≥ length` makes it total;
its value is fuel-independent from there. -/
def splitWsAux : Nat → List Char → List (List Char)
  | 0, _ => []
  | _ + 1, [] => []
  | fuel + 1, c :: cs =>
      if pyIsWs c then splitWsAux fuel cs
      else (c :: cs.takeWhile (fun d => !pyIsWs d))
        :: splitWsAux fuel (cs.dropWhile (fun d => !pyIsWs d))

/-- Python `str.split()` (no separator): whitespace-delimited tokens, empties
dropped. -/
def splitWs (l : List Char) : List (List Char) := splitWsAux l.length l

/-- Python `" ".join(tokens)`. -/
def joinSpace : List (List Char) → List Char
  | [] => []
  | t :: ts =>
      match ts with
      | [] => t
      | _ :: _ => t ++ ' ' :: joinSpace ts

/-- `" ".join((text or "").strip().split())`: the whitespace-collapse used by
`is_meaningful_message`, `summarize_title` and `make_title`. -/
def pyCollapse (l : List Char) : List Char := joinSpace (splitWs l)

/-- Python `t.split(" ")` (single-space separator, empties kept). -/
def splitOnSpace : List Char → List (List Char)
  | [] => [[]]
  | c :: cs =>
      if c = ' ' then [] :: splitOnSpace cs
      else
        match splitOnSpace cs with
        | [] => [[c]]
        | t :: ts => (c :: t) :: ts

theorem splitWsAux_nil (f : Nat) : splitWsAux f [] = [] := by
  cases f <;> rfl

theorem dropWhile_length_le {p : Char → Bool} :
    ∀ l : List Char, (l.dropWhile p).length ≤ l.length := by
  intro l
  induction l with
  | nil => exact Nat.le_refl _
  | cons c cs ih =>
      rw [List.dropWhile_cons]
      by_cases hc : p c = true
      · rw [if_pos hc]
        simp only [List.length_cons]
        omega
      · rw [if_neg hc]

theorem splitWsAux_fuel (f1 : Nat) :
    ∀ (f2 : Nat) (l : List Char), l.length ≤ f1 → l.length ≤ f2 →
      splitWsAux f1 l = splitWsAux f2 l := by
  induction f1 with
  | zero =>
      intro f2 l h1 _
      have : l = [] := List.length_eq_zero.mp (Nat.le_zero.mp h1)
      subst this
      rw [splitWsAux_nil, splitWsAux_nil]
  | succ f ih =>
      intro f2 l h1 h2
      match l with
      | [] => rw [splitWsAux_nil, splitWsAux_nil]
      | c :: cs =>
          match f2 with
          | 0 => simp at h2
          | g + 1 =>
              simp only [List.length_cons] at h1 h2
              by_cases hc : pyIsWs c = true
              · simp only [splitWsAux]
                rw [if_pos hc, if_pos hc]
                exact ih g cs (by omega) (by omega)
              · simp only [splitWsAux]
                rw [if_neg hc, if_neg hc]
                have hd : (cs.dropWhile (fun d => !pyIsWs d)).length ≤ cs.length :=
                  dropWhile_length_le _
                rw [ih g (cs.dropWhile (fun d => !pyIsWs d)) (by omega) (by omega)]

theorem mem_takeWhile_pred {p : Char → Bool} :
    ∀ (l : List Char) (a : Char), a ∈ l.takeWhile p → p a = true := by
  intro l
  induction l with
  | nil => intro a ha; simp at ha
  | cons c cs ih =>
      intro a ha
      rw [List.takeWhile_cons] at ha
      by_cases hc : p c = true
      · rw [if_pos hc] at ha
        rcases List.mem_cons.mp ha with ha | ha
        · subst ha; exact hc
        · exact ih a ha
      · rw [if_neg hc] at ha
        simp at ha

theorem splitWsAux_tokens (f : Nat) :
    ∀ l : List Char, l.length ≤ f → ∀ t ∈ splitWsAux f l,
      t ≠ [] ∧ ∀ c ∈ t, pyIsWs c = false := by
  induction f with
  | zero => intro l _ t ht; simp [splitWsAux] at ht
  | succ f ih =>
      intro l hl t ht
      match l with
      | [] => simp [splitWsAux_nil] at ht
      | c :: cs =>
          simp only [List.length_cons] at hl
          by_cases hc : pyIsWs c = true
          · simp only [splitWsAux] at ht
            rw [if_pos hc] at ht
            exact ih cs (by omega) t ht
          · simp only [splitWsAux] at ht
            rw [if_neg hc] at ht
            rcases List.mem_cons.mp ht with ht | ht
            · subst ht
              refine ⟨by simp, ?_⟩
              intro x hx
              rcases List.mem_cons.mp hx with hx | hx
              · subst hx
                simpa using hc
              · have := mem_takeWhile_pred cs x hx
                simpa using this
            · have hd : (cs.dropWhile (fun d => !pyIsWs d)).length ≤ cs.length :=
                dropWhile_length_le _
              exact ih _ (by omega) t ht

theorem splitWs_tokens (l : List Char) :
    ∀ t ∈ splitWs l, t ≠ [] ∧ ∀ c ∈ t, pyIsWs c = false :=
  splitWsAux_tokens l.length l le_rfl

theorem takeWhile_all {p : Char → Bool} :
    ∀ l : List Char, (∀ c ∈ l, p c = true) → l.takeWhile p = l := by
  intro l
  induction l with
  | nil => intro _; rfl
  | cons c cs ih =>
      intro h
      rw [List.takeWhile_cons, if_pos (h c (by simp))]
      rw [ih (fun x hx => h x (by simp [hx]))]

theorem dropWhile_all {p : Char → Bool} :
    ∀ l : List Char, (∀ c ∈ l, p c = true) → l.dropWhile p = [] := by
  intro l
  induction l with
  | nil => intro _; rfl
  | cons c cs ih =>
      intro h
      rw [List.dropWhile_cons, if_pos (h c (by simp))]
      exact ih (fun x hx => h x (by simp [hx]))

theorem takeWhile_append_stop {p : Char → Bool} :
    ∀ (l : List Char) (d : Char) (r : List Char),
      (∀ c ∈ l, p c = true) → p d = false →
      ((l ++ d :: r).takeWhile p) = l := by
  intro l
  induction l with
  | nil =>
      intro d r _ hd
      simp [List.takeWhile_cons, hd]
  | cons c cs ih =>
      intro d r hl hd
      rw [List.cons_append, List.takeWhile_cons, if_pos (hl c (by simp))]
      rw [ih d r (fun x hx => hl x (by simp [hx])) hd]

theorem dropWhile_append_stop {p : Char → Bool} :
    ∀ (l : List Char) (d : Char) (r : List Char),
      (∀ c ∈ l, p c = true) → p d = false →
      ((l ++ d :: r).dropWhile p) = d :: r := by
  intro l
  induction l with
  | nil =>
      intro d r _ hd
      simp [List.dropWhile_cons, hd]
  | cons c cs ih =>
      intro d r hl hd
      rw [List.cons_append, List.dropWhile_cons, if_pos (hl c (by simp))]
      exact ih d r (fun x hx => hl x (by simp [hx])) hd

theorem splitWs_single (t : List Char) (ht : t ≠ [])
    (hws : ∀ c ∈ t, pyIsWs c = false) : splitWs t = [t] := by
  match t with
  | [] => exact absurd rfl ht
  | c :: cs =>
      have hc : pyIsWs c = false := hws c (by simp)
      have hcs : ∀ x ∈ cs, (fun d => !pyIsWs d) x = true := by
        intro x hx
        simp [hws x (by simp [hx])]
      unfold splitWs
      simp only [List.length_cons, splitWsAux]
      rw [if_neg (by simp [hc])]
      rw [takeWhile_all cs hcs, dropWhile_all cs hcs, splitWsAux_nil]

theorem splitWs_sep (t rest : List Char) (ht : t ≠ [])
    (hws : ∀ c ∈ t, pyIsWs c = false) :
    splitWs (t ++ ' ' :: rest) = t :: splitWs rest := by
  match t with
  | [] => exact absurd rfl ht
  | c :: cs =>
      have hc : pyIsWs c = false := hws c (by simp)
      have hcs : ∀ x ∈ cs, (fun d => !pyIsWs d) x = true := by
        intro x hx
        simp [hws x (by simp [hx])]
      have hsp : ((fun d => !pyIsWs d) ' ') = false := by decide
      have hsp2 : pyIsWs ' ' = true := by decide
      unfold splitWs
      rw [List.cons_append]
      have hlen : (c :: (cs ++ ' ' :: rest)).length
          = (cs.length + rest.length + 1) + 1 := by
        simp only [List.length_cons, List.length_append]
        omega
      rw [hlen]
      simp only [splitWsAux]
      rw [if_neg (by simp [hc])]
      rw [takeWhile_append_stop cs ' ' rest hcs hsp,
        dropWhile_append_stop cs ' ' rest hcs hsp]
      simp only [splitWsAux]
      rw [if_pos hsp2]
      rw [splitWsAux_fuel (cs.length + rest.length) rest.length rest
        (by omega) le_rfl]

theorem splitWs_joinSpace (ts : List (List Char))
    (h : ∀ t ∈ ts, t ≠ [] ∧ ∀ c ∈ t, pyIsWs c = false) :
    splitWs (joinSpace ts) = ts := by
  induction ts with
  | nil => rfl
  | cons t ts ih =>
      match ts with
      | [] =>
          have := h t (by simp)
          exact splitWs_single t this.1 this.2
      | t' :: ts' =>
          rw [joinSpace]
          have ht := h t (by simp)
          rw [splitWs_sep t _ ht.1 ht.2]
          rw [ih (fun x hx => h x (by simp [hx]))]

theorem pyCollapse_idem (l : List Char) :
    pyCollapse (pyCollapse l) = pyCollapse l := by
  unfold pyCollapse
  rw [splitWs_joinSpace (splitWs l) (splitWs_tokens l)]

theorem splitWs_pyCollapse (l : List Char) :
    splitWs (pyCollapse l) = splitWs l := by
  unfold pyCollapse
  rw [splitWs_joinSpace (splitWs l) (splitWs_tokens l)]

theorem splitOnSpace_noSpace :
    ∀ t : List Char, (∀ c ∈ t, c ≠ ' ') → splitOnSpace t = [t] := by
  intro t
  induction t with
  | nil => intro _; rfl
  | cons c cs ih =>
      intro h
      rw [splitOnSpace, if_neg (h c (by simp))]
      rw [ih (fun x hx => h x (by simp [hx]))]

theorem splitOnSpace_sep (t rest : List Char) (hws : ∀ c ∈ t, c ≠ ' ') :
    splitOnSpace (t ++ ' ' :: rest) = t :: splitOnSpace rest := by
  induction t with
  | nil =>
      rw [List.nil_append, splitOnSpace, if_pos rfl]
  | cons c cs ih =>
      rw [List.cons_append, splitOnSpace, if_neg (hws c (by simp))]
      rw [ih (fun x hx => hws x (by simp [hx]))]

theorem splitOnSpace_joinSpace (ts : List (List Char)) (hne : ts ≠ [])
    (h : ∀ t ∈ ts, ∀ c ∈ t, c ≠ ' ') :
    splitOnSpace (joinSpace ts) = ts := by
  induction ts with
  | nil => exact absurd rfl hne
  | cons t ts ih =>
      match ts with
      | [] => exact splitOnSpace_noSpace t (h t (by simp))
      | t' :: ts' =>
          rw [joinSpace]
          rw [splitOnSpace_sep t _ (h t (by simp))]
          rw [ih (by simp) (fun x hx => h x (by simp [hx]))]

theorem splitWs_token_no_space (l : List Char) :
    ∀ t ∈ splitWs l, ∀ c ∈ t, c ≠ ' ' := by
  intro t ht c hc
  have := (splitWs_tokens l t ht).2 c hc
  intro habs
  subst habs
  simp [pyIsWs] at this

theorem splitOnSpace_pyCollapse (l : List Char) (hne : pyCollapse l ≠ []) :
    splitOnSpace (pyCollapse l) = splitWs l := by
  unfold pyCollapse at *
  have hts : splitWs l ≠ [] := by
    intro habs
    rw [habs] at hne
    exact hne rfl
  exact splitOnSpace_joinSpace (splitWs l) hts (splitWs_token_no_space l)


/-- Python `c.isalpha()` restricted to ASCII plus Latin-1 letters (the only
alphabetic characters this code path meets; `0xD7`/`0xF7` are the two
non-letters of that block). -/
def pyIsAlpha (c : Char) : Bool :=
  c.isAlpha || (decide (0xC0 ≤ c.toNat) && decide (c.toNat ≤ 0xFF)
    && decide (c.toNat ≠ 0xD7) && decide (c.toNat ≠ 0xF7))

/-- Python `str.lower()` (ASCII approximation; the lowered values the claims
compare are ASCII or already lowercase). -/
def pyLower (l : List Char) : List Char := l.map Char.toLower

/-- The greeting/filler stoplist of `is_meaningful_message`. -/
def stopTokens : List (List Char) :=
  ["hi", "hello", "salut", "hey", "yo", "ok", "okay", "test", "bonjour"].map
    String.data

/-- `is_meaningful_message(text)` from src/main.py lines 266-280, including its
unreachable final stoplist test (a single token always fails the two-word test
first). -/
def isMeaningfulChars (s : List Char) : Bool :=
  let t := pyCollapse s
  if t.isEmpty then false
  else if t.length < 12 then false
  else
    let words := splitOnSpace t
    if words.length < 2 then false
    else if (t.filter pyIsAlpha).length < 6 then false
    else if words.length == 1 && stopTokens.contains (pyLower t) then false
    else true

/-- The character class `[a-zà-ÿ]` of the tokenizing regex. -/
def pyTitleClass (c : Char) : Bool :=
  (decide ('a' ≤ c) && decide (c ≤ 'z'))
    || (decide (0xE0 ≤ c.toNat) && decide (c.toNat ≤ 0xFF))

/-- Regex word characters (`\w`), for the `\b` boundaries: ASCII alphanumerics,
underscore, and the Latin-1 block (treating the whole block as word
constituents approximates Python's Unicode `\w` on these inputs). -/
def pyWordChar (c : Char) : Bool :=
  c.isAlphanum || c == '_'
    || (decide (0xC0 ≤ c.toNat) && decide (c.toNat ≤ 0xFF))

/-- Structural worker embedding `re.findall(r'\b[a-zà-ÿ]{3,}\b', text_lower)`:
maximal runs of class characters, kept when at least 3 long and flanked by word
boundaries; `prevW` records whether the previous character was a word
character. -/
def findWordsAux : Nat → Bool → List Char → List (List Char)
  | 0, _, _ => []
  | _ + 1, _, [] => []
  | fuel + 1, prevW, c :: cs =>
      if pyTitleClass c && !prevW then
        let run := c :: cs.takeWhile pyTitleClass
        let rest := cs.dropWhile pyTitleClass
        let okAfter :=
          match rest with
          | [] => true
          | d :: _ => !pyWordChar d
        if 3 ≤ run.length && okAfter then run :: findWordsAux fuel true rest
        else findWordsAux fuel true rest
      else findWordsAux fuel (pyWordChar c) cs

def findWords (l : List Char) : List (List Char) :=
  findWordsAux l.length false l

/-- The French stopword list of `summarize_title`. -/
def frStopwords : List (List Char) :=
  ["avec", "dans", "pour", "mon", "ma", "mes", "ton", "ta", "tes", "son", "sa",
   "ses", "un", "une", "le", "la", "les", "des", "du", "de", "au", "aux", "sur",
   "sous", "par", "entre", "pendant", "depuis", "chez", "vers", "à", "je", "tu",
   "il", "elle", "nous", "vous", "ils", "elles", "ce", "cette", "ces", "et",
   "ou", "mais", "donc", "car", "ni", "or", "que", "qui", "quoi", "où", "est",
   "sont", "suis", "es", "sommes", "êtes", "ai", "as", "a", "avons", "avez",
   "ont", "très", "peu", "plus", "moins", "aussi", "alors", "puis",
   "ainsi"].map String.data

/-- Python `str.capitalize()`: first character uppercased, the rest lowered. -/
def pyCapitalize : List Char → List Char
  | [] => []
  | c :: cs => c.toUpper :: cs.map Char.toLower

/-- `summarize_title(text)` from src/main.py lines 282-321 at the default
`max_words = 4` used by `make_title`. -/
def summarizeTitleChars (s : List Char) : List Char :=
  let t := pyCollapse s
  if t.isEmpty then "New chat".data
  else
    let words := findWords (pyLower t)
    let meaningful := words.filter (fun w => !(frStopwords.contains w))
    if meaningful.length < 2 then
      let firstWords := words.take 4
      if firstWords.isEmpty then "New chat".data
      else pyCapitalize (joinSpace firstWords)
    else pyCapitalize (joinSpace (meaningful.take 4))

/-- `make_title(first_user_message)` from src/main.py lines 323-335. -/
def makeTitleChars (s : List Char) : List Char :=
  let t := pyCollapse s
  if !(isMeaningfulChars t) then "New chat".data
  else
    let title := summarizeTitleChars t
    let words := splitWs title
    if 4 < words.length then joinSpace (words.take 4) else title

def makeTitle (s : String) : String := ⟨makeTitleChars s.data⟩

theorem stopTokens_short : ∀ x ∈ stopTokens, x.length < 12 := by decide

theorem isMeaningfulChars_false_of (s : List Char)
    (hcond : (pyCollapse s).length < 12
      ∨ (splitWs (pyCollapse s)).length < 2
      ∨ ((pyCollapse s).filter pyIsAlpha).length < 6
      ∨ stopTokens.contains (pyLower (pyCollapse s)) = true) :
    isMeaningfulChars s = false := by
  simp only [isMeaningfulChars]
  by_cases hE : (pyCollapse s).isEmpty = true
  · rw [if_pos hE]
  · have hne : pyCollapse s ≠ [] := by
      simpa [List.isEmpty_iff] using hE
    have hwords : splitOnSpace (pyCollapse s) = splitWs s :=
      splitOnSpace_pyCollapse s hne
    have hws : splitWs (pyCollapse s) = splitWs s := splitWs_pyCollapse s
    have hcond' : (pyCollapse s).length < 12
        ∨ (splitOnSpace (pyCollapse s)).length < 2
        ∨ ((pyCollapse s).filter pyIsAlpha).length < 6 := by
      rcases hcond with h | h | h | h
      · exact Or.inl h
      · refine Or.inr (Or.inl ?_)
        rw [hwords, ← hws]
        exact h
      · exact Or.inr (Or.inr h)
      · refine Or.inl ?_
        have hmem : pyLower (pyCollapse s) ∈ stopTokens := by
          simpa using h
        have hlen : (pyLower (pyCollapse s)).length < 12 :=
          stopTokens_short _ hmem
        simpa [pyLower] using hlen
    rw [if_neg hE]
    by_cases h12 : (pyCollapse s).length < 12
    · rw [if_pos h12]
    · rw [if_neg h12]
      by_cases h2 : (splitOnSpace (pyCollapse s)).length < 2
      · rw [if_pos h2]
      · rw [if_neg h2]
        by_cases h6 : ((pyCollapse s).filter pyIsAlpha).length < 6
        · rw [if_pos h6]
        · rw [if_neg h6]
          exfalso
          rcases hcond' with h | h | h
          · exact h12 h
          · exact h2 h
          · exact h6 h

theorem makeTitle_reject (s : List Char)
    (hcond : (pyCollapse s).length < 12
      ∨ (splitWs (pyCollapse s)).length < 2
      ∨ ((pyCollapse s).filter pyIsAlpha).length < 6
      ∨ stopTokens.contains (pyLower (pyCollapse s)) = true) :
    makeTitleChars s = "New chat".data := by
  have hcond2 : (pyCollapse (pyCollapse s)).length < 12
      ∨ (splitWs (pyCollapse (pyCollapse s))).length < 2
      ∨ ((pyCollapse (pyCollapse s)).filter pyIsAlpha).length < 6
      ∨ stopTokens.contains (pyLower (pyCollapse (pyCollapse s))) = true := by
    rw [pyCollapse_idem]
    exact hcond
  have hm : isMeaningfulChars (pyCollapse s) = false :=
    isMeaningfulChars_false_of (pyCollapse s) hcond2
  simp only [makeTitleChars]
  rw [hm]
  rfl

theorem makeTitle_words_le (s : List Char) :
    (splitWs (makeTitleChars s)).length ≤ 4 := by
  simp only [makeTitleChars]
  by_cases hm : isMeaningfulChars (pyCollapse s) = true
  · rw [if_neg (by simp [hm])]
    by_cases hw : 4 < (splitWs (summarizeTitleChars (pyCollapse s))).length
    · rw [if_pos hw]
      have hsub : ∀ x ∈ (splitWs (summarizeTitleChars (pyCollapse s))).take 4,
          x ≠ [] ∧ ∀ c ∈ x, pyIsWs c = false := by
        intro x hx
        exact splitWs_tokens _ x (List.mem_of_mem_take hx)
      rw [splitWs_joinSpace _ hsub]
      simp only [List.length_take]
      omega
    · rw [if_neg hw]
      omega
  · rw [if_pos (by simp [hm])]
    decide

/-- Claim C8: title derivation returns the sentinel "New chat" whenever the
whitespace-collapsed first message is shorter than 12 characters, or has fewer
than 2 words, or fewer than 6 alphabetic characters, or is a single token of
the greeting stoplist (such a token is a single word, so the word-count test
already rejects it); in particular "Hello" yields "New chat"; and a derived
non-sentinel title always has at most 4 words. -/
theorem claim_c8 (s : String) :
    (((pyCollapse s.data).length < 12
      ∨ (splitWs (pyCollapse s.data)).length < 2
      ∨ ((pyCollapse s.data).filter pyIsAlpha).length < 6
      ∨ stopTokens.contains (pyLower (pyCollapse s.data)) = true) →
      makeTitle s = "New chat")
  ∧ makeTitle "Hello" = "New chat"
  ∧ (makeTitle s ≠ "New chat" → (splitWs (makeTitle s).data).length ≤ 4) := by
  refine ⟨?_, by decide, ?_⟩
  · intro hcond
    have h := makeTitle_reject s.data hcond
    show (⟨makeTitleChars s.data⟩ : String) = "New chat"
    rw [h]
  · intro _
    exact makeTitle_words_le s.data

theorem claim_c8_witness :
    ((pyCollapse "Hello".data).length < 12
      ∨ (splitWs (pyCollapse "Hello".data)).length < 2
      ∨ ((pyCollapse "Hello".data).filter pyIsAlpha).length < 6
      ∨ stopTokens.contains (pyLower (pyCollapse "Hello".data)) = true)
  ∧ makeTitle "Hello" = "New chat"
  ∧ makeTitle "I need help understanding the onboarding process" ≠ "New chat"
  ∧ (splitWs (makeTitle "I need help understanding the onboarding process").data).length
      ≤ 4 := by
  refine ⟨by decide, (claim_c8 "Hello").1 (by decide), by decide, ?_⟩
  exact (claim_c8 "I need help understanding the onboarding process").2.2 (by decide)

/-! ## Title uniquification (src/main.py `unique_title` lines 368-398) -/

/-- Python `str.strip()`. -/
def pyStrip (l : List Char) : List Char :=
  ((l.dropWhile pyIsWs).reverse.dropWhile pyIsWs).reverse

/-- Structural worker for the decimal rendering `str(n)` (via the f-string);
`fuel > n` suffices. -/
def natToDigitsAux : Nat → Nat → List Char
  | 0, _ => []
  | fuel + 1, n =>
      if n < 10 then [Char.ofNat (n + 48)]
      else natToDigitsAux fuel (n / 10) ++ [Char.ofNat (n % 10 + 48)]

def natToDigits (n : Nat) : List Char := natToDigitsAux (n + 1) n

/-- Python `int(num)` on a digit string. -/
def digitsToNat (l : List Char) : Nat :=
  l.foldl (fun a c => a * 10 + (c.toNat - 48)) 0

/-- The collision prefix `base + " ("`. -/
def titlePre (base : List Char) : List Char := base ++ " (".data

/-- The suffix-number collection loop of `unique_title`: each existing title of
the form `base (num)` with `num.isdigit()` contributes `int(num)` (Python
`isdigit` is modelled on ASCII digits, the only digits `str(n)` produces). -/
def usedNums (existing : List (List Char)) (base : List Char) : List Nat :=
  existing.filterMap (fun t =>
    if (titlePre base).isPrefixOf t && t.getLast? == some ')' then
      let num := (t.drop (titlePre base).length).dropLast
      if !num.isEmpty && num.all Char.isDigit then some (digitsToNat num)
      else none
    else none)

def maxUsed (used : List Nat) : Nat := used.foldr max 0

/-- The `while n in used_nums: n += 1` loop; fuel-bounded, any
`fuel > maxUsed used` reaches the exit. -/
def freeFrom (used : List Nat) : Nat → Nat → Nat
  | 0, n => n
  | fuel + 1, n => if used.contains n then freeFrom used fuel (n + 1) else n

def lowestFree (used : List Nat) : Nat := freeFrom used (maxUsed used + 1) 2

/-- `unique_title(db, email, bot_id, base, exclude_id)` from src/main.py, with
the query result (titles of the other live conversations of the same owner and
bot) abstracted as the `existing` list. -/
def uniqueTitle (existing : List (List Char)) (base0 : List Char) : List Char :=
  let b0 := if base0.isEmpty then "New chat".data else base0
  let b1 := pyStrip b0
  let base := if b1.isEmpty then "New chat".data else b1
  if !(existing.contains base) then base
  else titlePre base ++ natToDigits (lowestFree (usedNums existing base)) ++ [')']

def c4Existing : List (List Char) := ["T".data, "T (02)".data]

/-- Claim C4 counterexample: with existing titles {"T", "T (02)"} the candidate
"T" collides and the lowest unused suffixed form is "T (2)" (not present), yet
the code returns "T (3)": the title "T (02)" parses to the integer 2, so 2 is
skipped even though "T (2)" itself is unused. -/
theorem claim_c4_counterexample :
    uniqueTitle c4Existing "T".data = "T (3)".data
  ∧ ¬ "T (2)".data ∈ c4Existing
  ∧ "T".data ∈ c4Existing := by
  refine ⟨by decide, by decide, by decide⟩

theorem digitsToNat_append_digit (l : List Char) (c : Char) :
    digitsToNat (l ++ [c]) = digitsToNat l * 10 + (c.toNat - 48) := by
  simp [digitsToNat, List.foldl_append]

theorem char_ofNat_digit_toNat (m : Nat) (hm : m < 10) :
    (Char.ofNat (m + 48)).toNat = m + 48 := by
  interval_cases m <;> decide

theorem char_ofNat_digit_isDigit (m : Nat) (hm : m < 10) :
    (Char.ofNat (m + 48)).isDigit = true := by
  interval_cases m <;> decide

theorem natToDigitsAux_spec (fuel : Nat) :
    ∀ n, n < fuel →
      digitsToNat (natToDigitsAux fuel n) = n
      ∧ natToDigitsAux fuel n ≠ []
      ∧ ∀ c ∈ natToDigitsAux fuel n, c.isDigit = true := by
  induction fuel with
  | zero => intro n hn; omega
  | succ fuel ih =>
      intro n hn
      by_cases h10 : n < 10
      · rw [natToDigitsAux, if_pos h10]
        refine ⟨?_, by simp, ?_⟩
        · simp [digitsToNat, char_ofNat_digit_toNat n h10]
        · intro c hc
          rcases List.mem_singleton.mp hc with rfl
          exact char_ofNat_digit_isDigit n h10
      · rw [natToDigitsAux, if_neg h10]
        have hdiv : n / 10 < fuel := by omega
        obtain ⟨h1, h2, h3⟩ := ih (n / 10) hdiv
        refine ⟨?_, by simp, ?_⟩
        · rw [digitsToNat_append_digit, h1,
            char_ofNat_digit_toNat (n % 10) (by omega)]
          omega
        · intro c hc
          rcases List.mem_append.mp hc with hc | hc
          · exact h3 c hc
          · rcases List.mem_singleton.mp hc with rfl
            exact char_ofNat_digit_isDigit (n % 10) (by omega)

theorem digitsToNat_natToDigits (n : Nat) :
    digitsToNat (natToDigits n) = n :=
  (natToDigitsAux_spec (n + 1) n (by omega)).1

theorem natToDigits_ne_nil (n : Nat) : natToDigits n ≠ [] :=
  (natToDigitsAux_spec (n + 1) n (by omega)).2.1

theorem natToDigits_digits (n : Nat) :
    ∀ c ∈ natToDigits n, c.isDigit = true :=
  (natToDigitsAux_spec (n + 1) n (by omega)).2.2

theorem mem_le_maxUsed (used : List Nat) : ∀ m ∈ used, m ≤ maxUsed used := by
  induction used with
  | nil => intro m hm; simp at hm
  | cons u us ih =>
      intro m hm
      rcases List.mem_cons.mp hm with hm | hm
      · subst hm
        exact le_max_left _ _
      · exact Nat.le_trans (ih m hm) (le_max_right _ _)

theorem freeFrom_spec (used : List Nat) :
    ∀ fuel n, maxUsed used < n + fuel →
      ¬ freeFrom used fuel n ∈ used
      ∧ n ≤ freeFrom used fuel n
      ∧ ∀ m, n ≤ m → m < freeFrom used fuel n → m ∈ used := by
  intro fuel
  induction fuel with
  | zero =>
      intro n hn
      rw [freeFrom]
      refine ⟨?_, Nat.le_refl _, ?_⟩
      · intro habs
        have := mem_le_maxUsed used _ habs
        omega
      · intro m hm hmlt
        omega
  | succ fuel ih =>
      intro n hn
      by_cases hc : used.contains n = true
      · rw [freeFrom, if_pos hc]
        obtain ⟨h1, h2, h3⟩ := ih (n + 1) (by omega)
        refine ⟨h1, by omega, ?_⟩
        intro m hm hmlt
        by_cases hmn : m = n
        · subst hmn
          simpa using hc
        · exact h3 m (by omega) hmlt
      · rw [freeFrom, if_neg hc]
        refine ⟨by simpa using hc, Nat.le_refl _, ?_⟩
        intro m hm hmlt
        omega

theorem lowestFree_spec (used : List Nat) :
    ¬ lowestFree used ∈ used
    ∧ 2 ≤ lowestFree used
    ∧ ∀ m, 2 ≤ m → m < lowestFree used → m ∈ used :=
  freeFrom_spec used (maxUsed used + 1) 2 (by omega)

theorem isPrefixOf_append_self (l r : List Char) :
    l.isPrefixOf (l ++ r) = true := by
  induction l with
  | nil => simp [List.isPrefixOf]
  | cons c cs ih => simp [List.isPrefixOf, ih]

theorem usedNums_mem_of_suffix (existing : List (List Char)) (base : List Char)
    (n : Nat)
    (hmem : (titlePre base ++ natToDigits n ++ [')']) ∈ existing) :
    n ∈ usedNums existing base := by
  unfold usedNums
  apply List.mem_filterMap.mpr
  refine ⟨titlePre base ++ natToDigits n ++ [')'], hmem, ?_⟩
  have hpre : (titlePre base).isPrefixOf
      (titlePre base ++ natToDigits n ++ [')']) = true := by
    rw [List.append_assoc]
    exact isPrefixOf_append_self _ _
  have hlast : (titlePre base ++ natToDigits n ++ [')']).getLast? = some ')' :=
    List.getLast?_concat _
  have hnum : ((titlePre base ++ natToDigits n ++ [')']).drop
      (titlePre base).length).dropLast = natToDigits n := by
    rw [List.append_assoc, List.drop_left, List.dropLast_concat]
  rw [if_pos (by simp [hpre, hlast])]
  rw [hnum]
  have hne : (natToDigits n).isEmpty = false := by
    cases hh : natToDigits n with
    | nil => exact absurd hh (natToDigits_ne_nil n)
    | cons _ _ => rfl
  rw [if_pos ?_]
  · rw [digitsToNat_natToDigits]
  · simp [hne]
    intro c hc
    exact natToDigits_digits n c hc

theorem uniqueTitle_eq (existing : List (List Char)) (base : List Char)
    (hb1 : pyStrip base = base) (hb2 : base ≠ []) :
    uniqueTitle existing base
      = if !(existing.contains base) then base
        else titlePre base
            ++ natToDigits (lowestFree (usedNums existing base)) ++ [')'] := by
  have h0 : base.isEmpty = false := by
    cases base with
    | nil => exact absurd rfl hb2
    | cons _ _ => rfl
  have e0 : (if base.isEmpty = true then "New chat".data else base) = base := by
    rw [if_neg (by simp [h0])]
  simp only [uniqueTitle, e0, hb1]

/-- Claim C4 (amended): `unique_title` first strips the candidate (substituting
"New chat" when empty); for a stripped nonempty candidate it returns the
candidate unchanged when unused, and otherwise returns `"{candidate} (n)"` for
the lowest integer `n ≥ 2` that is not the integer value of any existing
title's digit suffix of the form `"{candidate} (digits)"` — which can skip an
unused canonical form such as `"{candidate} (2)"` when a noncanonical digit
string like `"(02)"` is present; the returned title is never in the existing
set, and determinism is definitional for this pure function. -/
theorem claim_c4_amended (existing : List (List Char)) (base : List Char)
    (hb1 : pyStrip base = base) (hb2 : base ≠ []) :
    (¬ base ∈ existing → uniqueTitle existing base = base)
  ∧ (base ∈ existing →
      uniqueTitle existing base
        = titlePre base
            ++ natToDigits (lowestFree (usedNums existing base)) ++ [')']
      ∧ 2 ≤ lowestFree (usedNums existing base)
      ∧ ¬ lowestFree (usedNums existing base) ∈ usedNums existing base
      ∧ ∀ m, 2 ≤ m → m < lowestFree (usedNums existing base) →
          m ∈ usedNums existing base)
  ∧ ¬ uniqueTitle existing base ∈ existing := by
  obtain ⟨hfree, h2le, hmin⟩ := lowestFree_spec (usedNums existing base)
  have heq := uniqueTitle_eq existing base hb1 hb2
  refine ⟨?_, ?_, ?_⟩
  · intro hmem
    rw [heq, if_pos (by simp [hmem])]
  · intro hmem
    rw [heq, if_neg (by simp [hmem])]
    exact ⟨rfl, h2le, hfree, hmin⟩
  · by_cases hmem : base ∈ existing
    · rw [heq, if_neg (by simp [hmem])]
      intro habs
      exact hfree (usedNums_mem_of_suffix existing base _ habs)
    · rw [heq, if_pos (by simp [hmem])]
      exact hmem

theorem claim_c4_amended_witness :
    pyStrip "T".data = "T".data
  ∧ "T".data ≠ []
  ∧ uniqueTitle c4Existing "T".data
      = titlePre "T".data
          ++ natToDigits (lowestFree (usedNums c4Existing "T".data)) ++ [')']
  ∧ ¬ uniqueTitle c4Existing "T".data ∈ c4Existing := by
  have h := claim_c4_amended c4Existing "T".data (by decide) (by decide)
  exact ⟨by decide, by decide, (h.2.1 (by decide)).1, h.2.2⟩

end DCoach
